import Mathlib

/-!
Verification development for the TonAudit report synthesis pipeline.

The development shallowly embeds the streaming-report pipeline of the
repository (auditor.ts, server.ts, pdf.ts):

- a model of the JavaScript runtime values that flow out of JSON.parse,
  together with the JavaScript coercions the code relies on (truthiness,
  ToNumber, Math.min and Math.max with NaN propagation);
- the payload extraction and repair stages of auditContract: the locate
  regex, the quoted-span control-character escaping regex, JSON.parse
  (modelled by an executable recursive-descent parser; JSON numbers are
  modelled as decimal integer literals, matching the integer scores the
  pipeline works with), and the aggressive control-character cleanup;
- the report assembler (finding id assignment, clamping, defaulting);
- the batch comparison logic of server.ts;
- the card-height estimation and page-break logic of pdf.ts.

All definitions operate on explicit character lists and are executable.
-/

set_option maxHeartbeats 1000000

/-! ## Named characters

Characters that the source manipulates, given names so concrete inputs can
be written as plain lists. -/

def qu : Char := Char.ofNat 34

def bsl : Char := Char.ofNat 92

def nlc : Char := Char.ofNat 10

def crc : Char := Char.ofNat 13

def tbc : Char := Char.ofNat 9

def lbr : Char := Char.ofNat 123

def rbr : Char := Char.ofNat 125

/-! ## JavaScript runtime values

The untyped values the pipeline manipulates after JSON.parse. vnan and
vundefined cannot be produced by the parser; they arise from JavaScript
coercions (NaN) and from absent properties (undefined), which the
assembler code observes through the lens of truthiness. -/

inductive JSVal where
  | vnull
  | vundefined
  | vbool (b : Bool)
  | vnum (n : Int)
  | vnan
  | vstr (s : String)
  | varr (elems : List JSVal)
  | vobj (fields : List (String × JSVal))

/-- Result of a JavaScript numeric computation: an integer or NaN. -/
inductive JSNum where
  | num (n : Int)
  | nan
deriving DecidableEq

/-- JavaScript truthiness: false, 0, NaN, empty string, null and undefined
are falsy; every other value, including empty arrays and objects, is
truthy. -/
def truthy : JSVal → Bool
  | .vnull => false
  | .vundefined => false
  | .vbool b => b
  | .vnum n => n != 0
  | .vnan => false
  | .vstr s => s != ""
  | .varr _ => true
  | .vobj _ => true

/-- Property lookup where the last binding of a key wins, matching the
object JSON.parse builds from a payload with duplicate keys. -/
def lookupLast (k : String) : List (String × JSVal) → Option JSVal
  | [] => none
  | (k2, v) :: rest =>
    match lookupLast k rest with
    | some w => some w
    | none => if k2 = k then some v else none

/-- JavaScript property access parsed.k: absent properties read as
undefined. The pipeline only ever dereferences objects (the extractor
guarantees the parsed payload is an object), so non-objects read as
undefined here as well. -/
def getField (v : JSVal) (k : String) : JSVal :=
  match v with
  | .vobj fs => (lookupLast k fs).getD .vundefined
  | _ => .vundefined

/-! ## Decimal digit strings

The decimal rendering used by JavaScript String(n) for the integers the
pipeline produces, plus the evaluation map used to reason about it. -/

def digitChar (n : Nat) : Char := Char.ofNat (48 + n)

def natCharsF : Nat → Nat → List Char
  | 0, _ => []
  | fuel + 1, n =>
    if n < 10 then [digitChar n] else natCharsF fuel (n / 10) ++ [digitChar (n % 10)]

/-- Decimal digits of n, most significant first. The fuel argument of
natCharsF only keeps the recursion structural; the wrapper always
supplies enough. -/
def natChars (n : Nat) : List Char := natCharsF (n + 1) n

def intChars (i : Int) : List Char :=
  if i < 0 then '-' :: natChars i.natAbs else natChars i.natAbs

def isDigitCh (c : Char) : Bool := 48 ≤ c.toNat && c.toNat ≤ 57

/-- Value of a string of decimal digits (most significant first). -/
def digitsVal (ds : List Char) : Nat := ds.foldl (fun a c => a * 10 + (c.toNat - 48)) 0

/-- Whitespace recognised when JavaScript coerces a string to a number. -/
def isWsChar (c : Char) : Bool := c == ' ' || c == nlc || c == crc || c == tbc

def jsTrim (l : List Char) : List Char :=
  ((l.dropWhile isWsChar).reverse.dropWhile isWsChar).reverse

/-- JavaScript ToNumber on a string: trimmed empty input is 0, an optional
sign followed by decimal digits is an integer, anything else is NaN (the
model restricts numeric strings to integer literals). -/
def strToNumber (s : String) : JSNum :=
  match jsTrim s.data with
  | [] => .num 0
  | '-' :: ds => if ds ≠ [] ∧ ds.all isDigitCh then .num (-(digitsVal ds : Int)) else .nan
  | '+' :: ds => if ds ≠ [] ∧ ds.all isDigitCh then .num (digitsVal ds) else .nan
  | ds => if ds.all isDigitCh then .num (digitsVal ds) else .nan

mutual
/-- JavaScript String(v) for the values the pipeline can hold. -/
def jsToString : JSVal → String
  | .vundefined => "undefined"
  | .vnull => "null"
  | .vbool b => if b then "true" else "false"
  | .vnum n => String.mk (intChars n)
  | .vnan => "NaN"
  | .vstr s => s
  | .varr xs => String.mk (jsArrChars xs)
  | .vobj _ => "[object Object]"
termination_by v => 3 * sizeOf v
/-- Array.prototype.toString: elements joined by commas. -/
def jsArrChars : List JSVal → List Char
  | [] => []
  | [x] => jsElemChars x
  | x :: y :: xs => jsElemChars x ++ ',' :: jsArrChars (y :: xs)
termination_by xs => 3 * sizeOf xs + 2
/-- One array element as text: null and undefined render empty. -/
def jsElemChars : JSVal → List Char
  | .vnull => []
  | .vundefined => []
  | x => (jsToString x).data
termination_by x => 3 * sizeOf x + 1
end

/-- JavaScript ToNumber. Arrays and objects coerce through their default
string form (ToPrimitive with the default toString). -/
def toNumber : JSVal → JSNum
  | .vundefined => .nan
  | .vnull => .num 0
  | .vbool b => .num (if b then 1 else 0)
  | .vnum n => .num n
  | .vnan => .nan
  | .vstr s => strToNumber s
  | .varr xs => strToNumber (jsToString (.varr xs))
  | .vobj fs => strToNumber (jsToString (.vobj fs))

/-- The JavaScript expression a or-else b: a when a is truthy, else b. -/
def jsOr (a b : JSVal) : JSVal := if truthy a then a else b

/-- Math.min over two already-coerced numbers; NaN propagates. -/
def jsMinNum : JSNum → JSNum → JSNum
  | .num a, .num b => .num (min a b)
  | _, _ => .nan

/-- Math.max over two already-coerced numbers; NaN propagates. -/
def jsMaxNum : JSNum → JSNum → JSNum
  | .num a, .num b => .num (max a b)
  | _, _ => .nan

/-! ## Report assembler (auditor.ts, assembly of the AuditReport) -/

/-- The score computation of auditContract:
Math.max(0, Math.min(100, parsed.score or-else 50)). Math.min coerces its
argument with ToNumber, so a truthy non-numeric score becomes NaN. -/
def clampScore (parsed : JSVal) : JSNum :=
  jsMaxNum (.num 0) (jsMinNum (.num 100) (toNumber (jsOr (getField parsed "score") (.vnum 50))))

/-- padStart(3, "0") on the decimal digits of a sequence number. -/
def padStart3 (s : List Char) : List Char :=
  if s.length < 3 then List.replicate (3 - s.length) '0' ++ s else s

/-- The finding id the assembler writes for 0-based position i. -/
def findingId (i : Nat) : String :=
  String.mk ('T' :: 'O' :: 'N' :: '-' :: padStart3 (natChars (i + 1)))

/-- Array.prototype.map with the element index, starting the count at k. -/
def mapIdxFrom {α β : Type} (k : Nat) (f : Nat → α → β) : List α → List β
  | [] => []
  | a :: rest => f k a :: mapIdxFrom (k + 1) f rest

/-- Fields contributed by an object spread. Spreading a string contributes
its indexed characters; spreading any other primitive contributes
nothing. -/
def spreadFields : JSVal → List (String × JSVal)
  | .vobj fs => fs
  | .vstr s => mapIdxFrom 0 (fun i c => (String.mk (natChars i), JSVal.vstr (String.mk [c]))) s.data
  | _ => []

/-- One assembled finding: the spread of the model finding with the id
property set. The binding is appended; reads resolve through lookupLast,
so the appended id is the one observed, matching the object literal. -/
def withId (f : JSVal) (i : Nat) : JSVal :=
  .vobj (spreadFields f ++ [("id", .vstr (findingId i))])

def isArr : JSVal → Bool
  | .varr _ => true
  | _ => false

/-- (parsed.findings or-else []).map(...): none models the TypeError the
runtime raises when findings is truthy but not an array (map is then not a
function). -/
def assembleFindings (parsed : JSVal) : Option (List JSVal) :=
  match jsOr (getField parsed "findings") (.varr []) with
  | .varr xs => some (mapIdxFrom 0 (fun i f => withId f i) xs)
  | _ => none

/-- The regex replace of a final dot-plus-extension: drops the last dot
and the nonempty run of non-dot characters after it, when the string ends
that way; otherwise the string is unchanged. -/
def stripLastExt (f : String) : String :=
  let r := f.data.reverse
  let run := r.takeWhile (fun c => c != '.')
  match r.drop run.length with
  | '.' :: rest => if run.isEmpty then f else String.mk rest.reverse
  | _ => f

/-- contractName: the filename with the last extension stripped, or the
fixed placeholder when the filename is absent or the strip result is the
empty string (which is falsy). -/
def contractNameOf (filename : Option String) : String :=
  match filename with
  | none => "Unknown Contract"
  | some f =>
    let s := stripLastExt f
    if s = "" then "Unknown Contract" else s

/-- code.split(newline): JavaScript split keeps empty segments and returns
one (empty) segment for empty input. -/
def splitLinesOn : List Char → List (List Char)
  | [] => [[]]
  | c :: cs =>
    if c = nlc then [] :: splitLinesOn cs
    else
      match splitLinesOn cs with
      | l :: ls => (c :: l) :: ls
      | [] => [[c]]

/-- Lines whose trim is nonempty, as counted for linesOfCode. -/
def nonBlankLineCount (code : List Char) : Nat :=
  ((splitLinesOn code).filter (fun l => (jsTrim l).length > 0)).length

inductive ContractLanguage where
  | func
  | tact
  | unknown
deriving DecidableEq

/-- Whether the first list starts the second. -/
def startsList : List Char → List Char → Bool
  | [], _ => true
  | _ :: _, [] => false
  | p :: ps, c :: cs => p == c && startsList ps cs

/-- Whether pat occurs contiguously inside the list. -/
def hasSubList (pat : List Char) : List Char → Bool
  | [] => pat.isEmpty
  | c :: cs => startsList pat (c :: cs) || hasSubList pat cs

def strIncludes (s pat : String) : Bool := hasSubList pat.data s.data

def strEndsWith (s pat : String) : Bool := startsList pat.data.reverse s.data.reverse

/-- detectLanguage of auditor.ts: extension first, then content
heuristics. -/
def detectLanguage (code : String) (filename : Option String) : ContractLanguage :=
  if (filename.map (fun f => strEndsWith f ".tact")).getD false then .tact
  else if (filename.map (fun f => strEndsWith f ".fc" || strEndsWith f ".func")).getD false then .func
  else if strIncludes code "contract " && strIncludes code "fun " then .tact
  else if strIncludes code "() impure" || strIncludes code "recv_internal" || strIncludes code "#include" then .func
  else .unknown

/-- The canonical report. Model-supplied fields keep their untyped runtime
values (the assembler passes them through with truthiness defaults and no
validation). -/
structure AuditReport where
  contractName : String
  language : ContractLanguage
  linesOfCode : Nat
  auditedAt : String
  overallRisk : JSVal
  summary : JSVal
  findings : List JSVal
  gasAnalysis : JSVal
  architectureNotes : JSVal
  score : JSNum

/-- Assembly of the AuditReport from the parsed payload (auditor.ts).
Returns none exactly when the findings map throws; every other field is a
total computation. now stands for the wall-clock timestamp. -/
def assembleReport (parsed : JSVal) (code : String) (filename : Option String) (now : String) :
    Option AuditReport :=
  (assembleFindings parsed).map fun fs =>
    { contractName := contractNameOf filename
      language := detectLanguage code filename
      linesOfCode := nonBlankLineCount code.data
      auditedAt := now
      overallRisk := jsOr (getField parsed "overallRisk") (.vstr "medium")
      summary := jsOr (getField parsed "summary") (.vstr "")
      findings := fs
      gasAnalysis := jsOr (getField parsed "gasAnalysis") (.vstr "")
      architectureNotes := jsOr (getField parsed "architectureNotes") (.vstr "")
      score := clampScore parsed }

/-! ## Payload extraction and repair (auditor.ts)

The locate regex takes the substring from the first open brace to the
last close brace; the regex engine needs a close brace strictly after the
first open brace to match at all. -/

/-- Suffix of the buffer starting at the first open brace. -/
def dropToBrace : List Char → Option (List Char)
  | [] => none
  | c :: cs => if c = lbr then some (c :: cs) else dropToBrace cs

/-- Longest prefix ending at the last close brace, none when no close
brace occurs. -/
def cutAfterLastClose (cs : List Char) : Option (List Char) :=
  match cs.reverse.dropWhile (fun c => c != rbr) with
  | [] => none
  | l => some l.reverse

/-- The locate stage: the match of the greedy brace-to-brace regex. -/
def locateL (cs : List Char) : Option (List Char) :=
  match dropToBrace cs with
  | some (c :: rest) =>
    match cutAfterLastClose rest with
    | some body => some (c :: body)
    | none => none
  | _ => none

/-- One attempt of the quoted-span regex at an opening quote: consume span
characters up to an unescaped closing quote. A character other than a
quote or backslash (newlines included) extends the span; a backslash must
be followed by a character other than a line terminator (the regex dot).
Returns the span body and the remainder after the closing quote. -/
def spanScan : List Char → Option (List Char × List Char)
  | [] => none
  | c :: rest =>
    if c = qu then some ([], rest)
    else if c = bsl then
      match rest with
      | [] => none
      | d :: rest2 =>
        if d = nlc || d = crc then none
        else
          match spanScan rest2 with
          | some (b, r) => some (c :: d :: b, r)
          | none => none
    else
      match spanScan rest with
      | some (b, r) => some (c :: b, r)
      | none => none

/-- The per-character effect of the three chained replaces applied to a
matched span: newline, carriage return and tab become their two-character
escapes; every other character is untouched. -/
def escTriple (c : Char) : List Char :=
  if c = nlc then [bsl, 'n']
  else if c = crc then [bsl, 'r']
  else if c = tbc then [bsl, 't']
  else [c]

def escSpanBody (b : List Char) : List Char := b.flatMap escTriple

theorem spanScan_rest_length :
    ∀ (cs b r : List Char), spanScan cs = some (b, r) → r.length < cs.length := by
  intro cs
  induction cs using spanScan.induct with
  | case1 => intro b r h; simp [spanScan] at h
  | case2 rest2 =>
    intro b r h
    simp [spanScan.eq_def] at h
    rcases h with ⟨rfl, rfl⟩
    simp
  | case3 hbq => intro b r h; simp [spanScan, hbq] at h
  | case4 d rest2 hctl hbq => intro b r h; simp [spanScan, hbq, hctl] at h
  | case5 d rest2 hctl b0 r0 hs hbq ih =>
    intro b r h
    rw [spanScan.eq_def] at h
    simp [hbq, hctl, hs] at h
    have := ih b0 r0 hs
    rcases h with ⟨rfl, rfl⟩
    simp only [List.length_cons]
    omega
  | case6 d rest2 hctl hs hbq ih =>
    intro b r h
    simp [spanScan, hbq, hctl, hs] at h
  | case7 d rest2 hdq hdb b0 r0 hs ih =>
    intro b r h
    rw [spanScan.eq_def] at h
    simp [hdq, hdb, hs] at h
    have := ih b0 r0 hs
    rcases h with ⟨rfl, rfl⟩
    simp only [List.length_cons]
    omega
  | case8 d rest2 hdq hdb hs ih =>
    intro b r h
    rw [spanScan.eq_def] at h
    simp [hdq, hdb, hs] at h

/-- The global replace of the quoted-span regex over the candidate: text
outside matches is copied unchanged; each matched span has its control
characters escaped. When no span match can start at a quote, scanning
resumes right after that quote, as the regex engine advances through
positions. -/
def escapeStringsF : Nat → List Char → List Char
  | 0, _ => []
  | fuel + 1, cs =>
    match cs with
    | [] => []
    | c :: rest =>
      if c = qu then
        match spanScan rest with
        | some (b, r) => qu :: (escSpanBody b ++ qu :: escapeStringsF fuel r)
        | none => c :: escapeStringsF fuel rest
      else c :: escapeStringsF fuel rest

def escapeStringsL (cs : List Char) : List Char := escapeStringsF (cs.length + 1) cs

theorem escapeStringsF_irrel :
    ∀ (f1 f2 : Nat) (cs : List Char), cs.length < f1 → cs.length < f2 →
      escapeStringsF f1 cs = escapeStringsF f2 cs := by
  intro f1
  induction f1 with
  | zero => intro f2 cs h1; omega
  | succ g ih =>
    intro f2 cs h1 h2
    cases f2 with
    | zero => omega
    | succ g2 =>
      cases cs with
      | nil => rfl
      | cons c rest =>
        simp only [List.length_cons] at h1 h2
        simp only [escapeStringsF]
        by_cases hc : c = qu
        · rw [if_pos hc, if_pos hc]
          cases hs : spanScan rest with
          | some p =>
            obtain ⟨b, r⟩ := p
            have hr := spanScan_rest_length rest b r hs
            dsimp only
            rw [ih g2 r (by omega) (by omega)]
          | none =>
            dsimp only
            rw [ih g2 rest (by omega) (by omega)]
        · rw [if_neg hc, if_neg hc, ih g2 rest (by omega) (by omega)]

theorem escapeStringsF_to_L (fuel : Nat) (cs : List Char) (h : cs.length < fuel) :
    escapeStringsF fuel cs = escapeStringsL cs :=
  escapeStringsF_irrel fuel (cs.length + 1) cs h (by omega)

theorem escapeStringsL_nil : escapeStringsL [] = [] := rfl

/-- One-step unfolding of the global span replace. -/
theorem escapeStringsL_cons (c : Char) (rest : List Char) :
    escapeStringsL (c :: rest) =
      (if c = qu then
        match spanScan rest with
        | some (b, r) => qu :: (escSpanBody b ++ qu :: escapeStringsL r)
        | none => c :: escapeStringsL rest
      else c :: escapeStringsL rest) := by
  have base : escapeStringsL (c :: rest) =
      (if c = qu then
        match spanScan rest with
        | some (b, r) => qu :: (escSpanBody b ++ qu :: escapeStringsF (rest.length + 1) r)
        | none => c :: escapeStringsF (rest.length + 1) rest
      else c :: escapeStringsF (rest.length + 1) rest) := rfl
  rw [base]
  by_cases hc : c = qu
  · rw [if_pos hc, if_pos hc]
    cases hs : spanScan rest with
    | some p =>
      obtain ⟨b, r⟩ := p
      have hr := spanScan_rest_length rest b r hs
      dsimp only
      rw [escapeStringsF_to_L _ _ (by omega)]
    | none =>
      dsimp only
      rw [escapeStringsF_to_L _ _ (by omega)]
  · rw [if_neg hc, if_neg hc, escapeStringsF_to_L _ _ (by omega)]

/-- The last-resort cleanup regex over the whole candidate: every ASCII
control character (0 to 31 and 127) is replaced; newline, carriage return
and tab become their escapes, all other control characters are deleted,
and every remaining character is kept. -/
def stripCtlChar (c : Char) : List Char :=
  if c.toNat ≤ 31 || c.toNat = 127 then
    if c = nlc then [bsl, 'n']
    else if c = crc then [bsl, 'r']
    else if c = tbc then [bsl, 't']
    else []
  else [c]

def stripCtlL (cs : List Char) : List Char := cs.flatMap stripCtlChar

/-! ## JSON.parse (modelled)

An executable recursive-descent parser for the JSON grammar as JSON.parse
accepts it, restricted to integer number literals (no fractions or
exponents; a leading zero is only allowed on the literal zero itself, as
in the JSON grammar). Raw control characters inside string literals are
rejected, as JSON.parse rejects them. Recursion is on an explicit fuel
counter; the entry point supplies more fuel than the input length, which
the round-trip proofs show is always enough. -/

def skipWsL (cs : List Char) : List Char := cs.dropWhile isWsChar

def hexDigitVal (c : Char) : Option Nat :=
  if 48 ≤ c.toNat && c.toNat ≤ 57 then some (c.toNat - 48)
  else if 97 ≤ c.toNat && c.toNat ≤ 102 then some (c.toNat - 87)
  else if 65 ≤ c.toNat && c.toNat ≤ 70 then some (c.toNat - 55)
  else none

/-- The single-character escapes of the JSON grammar. -/
def escMap (c : Char) : Option Char :=
  if c = qu then some qu
  else if c = bsl then some bsl
  else if c = '/' then some '/'
  else if c = 'n' then some nlc
  else if c = 'r' then some crc
  else if c = 't' then some tbc
  else if c = 'b' then some (Char.ofNat 8)
  else if c = 'f' then some (Char.ofNat 12)
  else none

/-- Lex a string body after the opening quote, returning the decoded
string and the remainder after the closing quote. -/
def lexStrBody (acc : List Char) : List Char → Option (String × List Char)
  | [] => none
  | c :: rest =>
    if c = qu then some (String.mk acc.reverse, rest)
    else if c = bsl then
      match rest with
      | 'u' :: a :: b :: c2 :: d :: rest2 =>
        match hexDigitVal a, hexDigitVal b, hexDigitVal c2, hexDigitVal d with
        | some va, some vb, some vc, some vd =>
          lexStrBody (Char.ofNat (((va * 16 + vb) * 16 + vc) * 16 + vd) :: acc) rest2
        | _, _, _, _ => none
      | e :: rest2 =>
        match escMap e with
        | some ch => lexStrBody (ch :: acc) rest2
        | none => none
      | [] => none
    else if c.toNat ≤ 31 then none
    else lexStrBody (c :: acc) rest

/-- Split a leading run of decimal digits from the input. -/
def lexDigits : List Char → (List Char × List Char)
  | [] => ([], [])
  | c :: cs =>
    if isDigitCh c then
      let p := lexDigits cs
      (c :: p.1, p.2)
    else ([], c :: cs)

/-- An integer literal of the JSON grammar: optional minus, then either
the single digit zero or a run starting with a nonzero digit. -/
def lexInt : List Char → Option (Int × List Char)
  | '-' :: cs =>
    match lexDigits cs with
    | ([], _) => none
    | (d :: ds, r) =>
      if d = '0' ∧ ds ≠ [] then none
      else some (-(digitsVal (d :: ds) : Int), r)
  | cs =>
    match lexDigits cs with
    | ([], _) => none
    | (d :: ds, r) =>
      if d = '0' ∧ ds ≠ [] then none
      else some ((digitsVal (d :: ds) : Int), r)

mutual
/-- Parse one JSON value, returning it with the unconsumed remainder. -/
def parseV (fuel : Nat) (cs : List Char) : Option (JSVal × List Char) :=
  match fuel with
  | 0 => none
  | fuel + 1 =>
    match skipWsL cs with
    | 'n' :: 'u' :: 'l' :: 'l' :: r => some (.vnull, r)
    | 't' :: 'r' :: 'u' :: 'e' :: r => some (.vbool true, r)
    | 'f' :: 'a' :: 'l' :: 's' :: 'e' :: r => some (.vbool false, r)
    | c :: r =>
      if c = qu then
        match lexStrBody [] r with
        | some (s, r2) => some (.vstr s, r2)
        | none => none
      else if c = '[' then
        match skipWsL r with
        | d :: r2 =>
          if d = ']' then some (.varr [], r2)
          else
            match parseItems fuel (d :: r2) with
            | some (xs, r3) => some (.varr xs, r3)
            | none => none
        | [] => none
      else if c = lbr then
        match skipWsL r with
        | d :: r2 =>
          if d = rbr then some (.vobj [], r2)
          else
            match parseProps fuel (d :: r2) with
            | some (fs, r3) => some (.vobj fs, r3)
            | none => none
        | [] => none
      else if c = '-' || isDigitCh c then
        match lexInt (c :: r) with
        | some (n, r2) => some (.vnum n, r2)
        | none => none
      else none
    | [] => none
/-- Parse one or more comma-separated array elements and the closing
bracket. -/
def parseItems (fuel : Nat) (cs : List Char) : Option (List JSVal × List Char) :=
  match fuel with
  | 0 => none
  | fuel + 1 =>
    match parseV fuel cs with
    | none => none
    | some (v, r) =>
      match skipWsL r with
      | c :: r2 =>
        if c = ',' then
          match parseItems fuel r2 with
          | some (xs, r3) => some (v :: xs, r3)
          | none => none
        else if c = ']' then some ([v], r2)
        else none
      | [] => none
/-- Parse one or more comma-separated object members and the closing
brace. -/
def parseProps (fuel : Nat) (cs : List Char) : Option (List (String × JSVal) × List Char) :=
  match fuel with
  | 0 => none
  | fuel + 1 =>
    match skipWsL cs with
    | c :: r =>
      if c = qu then
        match lexStrBody [] r with
        | none => none
        | some (k, r1) =>
          match skipWsL r1 with
          | d :: r2 =>
            if d = ':' then
              match parseV fuel r2 with
              | none => none
              | some (v, r3) =>
                match skipWsL r3 with
                | e :: r4 =>
                  if e = ',' then
                    match parseProps fuel r4 with
                    | some (fs, r5) => some ((k, v) :: fs, r5)
                    | none => none
                  else if e = rbr then some ([(k, v)], r4)
                  else none
                | [] => none
            else none
          | [] => none
      else none
    | [] => none
end

/-- JSON.parse: parse one value and require only whitespace after it. -/
def jsonParseL (cs : List Char) : Option JSVal :=
  match parseV (cs.length + 1) cs with
  | some (v, r) => if (skipWsL r).isEmpty then some v else none
  | none => none

/-! ## The extraction pipeline of auditContract -/

inductive AuditError where
  | extractionFailed
  | malformedPayload
deriving DecidableEq

/-- The extraction and repair stages of auditContract, in order: locate
the brace-to-brace candidate (no match raises the failed-to-parse error),
escape control characters inside quoted spans, parse; on parse failure
strip all control characters from the escaped candidate and parse once
more; on failure raise the malformed-payload error. -/
def extractPayloadL (buf : List Char) : Except AuditError JSVal :=
  match locateL buf with
  | none => .error .extractionFailed
  | some cand =>
    let repaired := escapeStringsL cand
    match jsonParseL repaired with
    | some v => .ok v
    | none =>
      match jsonParseL (stripCtlL repaired) with
      | some v => .ok v
      | none => .error .malformedPayload

/-! ## Serializations used to quantify over buffers

The round-trip statements quantify over payload values and their textual
forms. The strict form is the proper JSON serialization; the corrupted
form is the streaming output the spec describes, in which quotes and
backslashes are escaped but newline, carriage return and tab appear as
literal characters inside string values. -/

/-- Strict JSON escaping of one string character. -/
def strictChar (c : Char) : List Char :=
  if c = qu then [bsl, qu]
  else if c = bsl then [bsl, bsl]
  else if c = nlc then [bsl, 'n']
  else if c = crc then [bsl, 'r']
  else if c = tbc then [bsl, 't']
  else [c]

/-- Streaming-corrupted rendering of one string character: control
characters stay literal. -/
def corruptChar (c : Char) : List Char :=
  if c = qu then [bsl, qu]
  else if c = bsl then [bsl, bsl]
  else [c]

def strictStr (s : String) : List Char := qu :: (s.data.flatMap strictChar ++ [qu])

def corruptStr (s : String) : List Char := qu :: (s.data.flatMap corruptChar ++ [qu])

mutual
/-- Strict minified JSON serialization. -/
def strictRender : JSVal → List Char
  | .vnull => ['n', 'u', 'l', 'l']
  | .vundefined => []
  | .vnan => []
  | .vbool b => if b then ['t', 'r', 'u', 'e'] else ['f', 'a', 'l', 's', 'e']
  | .vnum n => intChars n
  | .vstr s => strictStr s
  | .varr xs => '[' :: (strictItems xs ++ [']'])
  | .vobj fs => lbr :: (strictProps fs ++ [rbr])
def strictItems : List JSVal → List Char
  | [] => []
  | [x] => strictRender x
  | x :: y :: xs => strictRender x ++ ',' :: strictItems (y :: xs)
def strictProps : List (String × JSVal) → List Char
  | [] => []
  | [(k, v)] => strictStr k ++ ':' :: strictRender v
  | (k, v) :: p :: fs => strictStr k ++ ':' :: strictRender v ++ ',' :: strictProps (p :: fs)
end

mutual
/-- The corrupted serialization: identical shape, strings rendered with
literal control characters. -/
def corruptRender : JSVal → List Char
  | .vnull => ['n', 'u', 'l', 'l']
  | .vundefined => []
  | .vnan => []
  | .vbool b => if b then ['t', 'r', 'u', 'e'] else ['f', 'a', 'l', 's', 'e']
  | .vnum n => intChars n
  | .vstr s => corruptStr s
  | .varr xs => '[' :: (corruptItems xs ++ [']'])
  | .vobj fs => lbr :: (corruptProps fs ++ [rbr])
def corruptItems : List JSVal → List Char
  | [] => []
  | [x] => corruptRender x
  | x :: y :: xs => corruptRender x ++ ',' :: corruptItems (y :: xs)
def corruptProps : List (String × JSVal) → List Char
  | [] => []
  | [(k, v)] => corruptStr k ++ ':' :: corruptRender v
  | (k, v) :: p :: fs => corruptStr k ++ ':' :: corruptRender v ++ ',' :: corruptProps (p :: fs)
end

/-- A string character the round-trip statements allow: printable, or one
of the three control characters the repair stages handle. -/
def okStrChar (c : Char) : Bool := 32 ≤ c.toNat || c = nlc || c = crc || c = tbc

def wfStr (s : String) : Bool := s.data.all okStrChar

mutual
/-- Payload values the round-trip statements quantify over: anything
JSON.parse could produce whose strings stay within okStrChar. -/
def wfJson : JSVal → Bool
  | .vnull => true
  | .vundefined => false
  | .vnan => false
  | .vbool _ => true
  | .vnum _ => true
  | .vstr s => wfStr s
  | .varr xs => wfItems xs
  | .vobj fs => wfProps fs
def wfItems : List JSVal → Bool
  | [] => true
  | x :: xs => wfJson x && wfItems xs
def wfProps : List (String × JSVal) → Bool
  | [] => true
  | (k, v) :: fs => wfStr k && wfJson v && wfProps fs
end

/-! ## Batch audit and comparison (server.ts) -/

structure RankEntry where
  contractName : String
  score : JSNum
  overallRisk : JSVal

structure Comparison where
  riskRanking : List RankEntry
  totalFindings : Nat
  criticalCount : Nat
  highCount : Nat
  mostVulnerable : String
  safest : String
  commonCategories : List (String × Nat)

structure BatchReport where
  auditedAt : String
  totalContracts : Nat
  reports : List AuditReport
  comparison : Comparison

/-- Subtraction as the sort comparator computes it; NaN propagates. -/
def jsSubNum : JSNum → JSNum → JSNum
  | .num a, .num b => .num (a - b)
  | _, _ => .nan

/-- The sort order induced by the comparator a.score - b.score: a need
not come after b when the comparator result is not positive. The engine
treats a NaN comparator result as zero, hence as a tie. -/
def rankLe (a b : RankEntry) : Bool :=
  match jsSubNum a.score b.score with
  | .num d => decide (d ≤ 0)
  | .nan => true

/-- Stable insertion into a run sorted by the comparator. -/
def sortInsert (a : RankEntry) : List RankEntry → List RankEntry
  | [] => [a]
  | b :: bs => if rankLe a b then a :: b :: bs else b :: sortInsert a bs

/-- Array.prototype.sort with the score comparator, modelled as stable
insertion sort; for a consistent comparator every stable sort produces
the same list as the engine. -/
def sortRanking : List RankEntry → List RankEntry
  | [] => []
  | a :: rest => sortInsert a (sortRanking rest)

/-- Strict equality of a field against a string literal, as the severity
filters compare. -/
def sevIs (f : JSVal) (s : String) : Bool :=
  match getField f "severity" with
  | .vstr t => t == s
  | _ => false

/-- One step of the category tally: the counts object keeps first-insertion
order of keys and increments in place. Object keys that look like array
indices would be reordered by the engine; no claim depends on that. -/
def bumpCat (m : List (String × Nat)) (k : String) : List (String × Nat) :=
  match m with
  | [] => [(k, 1)]
  | (k2, n) :: rest => if k2 = k then (k2, n + 1) :: rest else (k2, n) :: bumpCat rest k

def tallyCats (fs : List JSVal) : List (String × Nat) :=
  fs.foldl (fun m f => bumpCat m (jsToString (getField f "category"))) []

/-- Stable insertion for the descending count sort of categories. -/
def catInsert (a : String × Nat) : List (String × Nat) → List (String × Nat)
  | [] => [a]
  | b :: bs => if b.2 ≤ a.2 then a :: b :: bs else b :: catInsert a bs

def sortCats : List (String × Nat) → List (String × Nat)
  | [] => []
  | a :: rest => catInsert a (sortCats rest)

def commonCategoriesOf (allFindings : List JSVal) : List (String × Nat) :=
  (sortCats (tallyCats allFindings)).take 5

/-- buildComparison of server.ts. -/
def buildComparison (reports : List AuditReport) : Comparison :=
  let riskRanking := sortRanking (reports.map (fun r => ⟨r.contractName, r.score, r.overallRisk⟩))
  let allFindings := reports.flatMap (fun r => r.findings)
  { riskRanking := riskRanking
    totalFindings := allFindings.length
    criticalCount := (allFindings.filter (fun f => sevIs f "critical")).length
    highCount := (allFindings.filter (fun f => sevIs f "high")).length
    mostVulnerable := ((riskRanking.head?).map (fun e => e.contractName)).getD "—"
    safest := ((riskRanking.getLast?).map (fun e => e.contractName)).getD "—"
    commonCategories := commonCategoriesOf allFindings }

/-- The successes pushed by the batch loop, in input order. -/
def batchSuccesses (items : List (Except AuditError AuditReport)) : List AuditReport :=
  items.filterMap (fun r => r.toOption)

/-- The batch handler loop of server.ts over the per-item audit outcomes:
a failure only emits a progress event and the loop continues; after the
loop an empty result set fails the whole batch (none models the
all-audits-failed error), otherwise the BatchReport is assembled over the
successes with totalContracts the original input count. -/
def runBatch (now : String) (items : List (Except AuditError AuditReport)) :
    Option BatchReport :=
  let reports := batchSuccesses items
  if reports.isEmpty then none
  else some
    { auditedAt := now
      totalContracts := items.length
      reports := reports
      comparison := buildComparison reports }

/-! ## Document renderer layout (pdf.ts) -/

/-- Height of an A4 page in points, as pdfkit reports it. -/
def a4Height : ℚ := 84189 / 100

/-- The findings-page bottom margin: page height minus 60. -/
def pageBottom : ℚ := a4Height - 60

/-- Data of one finding card that the height estimate reads: the lengths
of description and recommendation and whether a code snippet is present. -/
structure CardData where
  descLen : Nat
  recLen : Nat
  hasSnippet : Bool

/-- Math.ceil(length / 90) + 1, the per-block line estimate. -/
def estLineCount (len : Nat) : Nat := (len + 89) / 90 + 1

/-- The pre-draw card height estimate of the findings loop. -/
def cardHeightEst (c : CardData) : Nat :=
  16 + 20 + estLineCount c.descLen * 13 + 8 + estLineCount c.recLen * 13 +
    (if c.hasSnippet then 28 else 0) + 20

/-- The findings-page loop: for each card, the incoming cursor position,
whether a page break is emitted (exactly when the incoming cursor plus
the pre-computed estimate exceeds the bottom margin), and the position
the card is drawn at (the page top margin 40 right after a break). The
cursor then advances by the card height plus 10. -/
def renderTrace : List CardData → ℚ → List (CardData × ℚ × Bool × ℚ)
  | [], _ => []
  | c :: cs, y =>
    let h : ℚ := cardHeightEst c
    let broke : Bool := decide (y + h > pageBottom)
    let yDraw : ℚ := if broke then 40 else y
    (c, y, broke, yDraw) :: renderTrace cs (yDraw + h + 10)

/-- The cursor position the findings section starts at. -/
def findingsStartY : ℚ := 92

/-! ## Score lemmas (shared helpers) -/

/-- A falsy score field always yields the default 50. -/
theorem clampScore_falsy (p : JSVal) (h : truthy (getField p "score") = false) :
    clampScore p = .num 50 := by
  simp only [clampScore, jsOr, h, if_false, Bool.false_eq_true]
  rfl

/-- A nonzero numeric score field is clamped by the min and max pair. -/
theorem clampScore_num (p : JSVal) (n : Int) (h : getField p "score" = .vnum n)
    (hn : n ≠ 0) : clampScore p = .num (max 0 (min 100 n)) := by
  simp only [clampScore, jsOr, h]
  simp [truthy, hn, toNumber, jsMinNum, jsMaxNum]

/-- C10: for every parsed payload whose score field is falsy, and in
particular when it is exactly the number 0 (or null, the empty string, or
NaN), the assembled score is exactly 50 rather than the clamp of the
value: the default of 50 is substituted for every falsy score value, not
only for absent ones. -/
theorem score_zero_gets_default (p : JSVal) (h : truthy (getField p "score") = false) :
    clampScore p = .num 50 :=
  clampScore_falsy p h

/-- Witness for score_zero_gets_default: the payload whose score is the
number 0 is falsy and assembles to score 50, not 0. -/
theorem score_zero_gets_default_witness :
    getField (.vobj [("score", .vnum 0)]) "score" = .vnum 0 ∧
    clampScore (.vobj [("score", .vnum 0)]) = .num 50 :=
  ⟨rfl, score_zero_gets_default (.vobj [("score", .vnum 0)]) rfl⟩

/-- C1 counterexample: the payload whose score is the non-numeric string
"abc" is truthy, so the default of 50 is not substituted; ToNumber turns
it into NaN, which survives the min and max pair, so the assembled score
is NaN: it is not 50 and it is no number between 0 and 100. -/
theorem score_claim_counterexample :
    clampScore (.vobj [("score", .vstr "abc")]) = .nan ∧
    clampScore (.vobj [("score", .vstr "abc")]) ≠ .num 50 := by
  constructor
  · rfl
  · intro h
    have : (JSNum.nan : JSNum) = .num 50 := by
      calc JSNum.nan = clampScore (.vobj [("score", .vstr "abc")]) := rfl
        _ = .num 50 := h
    exact absurd this (by simp)

/-- C1 (amended): a nonzero numeric score is clamped by min and max into
the range 0 to 100 (negative values and values above 100 included); a
falsy score value, the absent field and the number 0 included, yields
exactly 50; but a truthy non-numeric score value coerces through ToNumber
and can yield NaN, as the string score "abc" does. -/
theorem score_clamp_amended :
    (∀ (p : JSVal) (n : Int), getField p "score" = .vnum n → n ≠ 0 →
      clampScore p = .num (max 0 (min 100 n)) ∧
      0 ≤ max 0 (min 100 n) ∧ max 0 (min 100 n) ≤ 100) ∧
    (∀ p : JSVal, truthy (getField p "score") = false → clampScore p = .num 50) ∧
    clampScore (.vobj [("score", .vstr "abc")]) = .nan := by
  refine ⟨fun p n h hn => ⟨clampScore_num p n h hn, ?_, ?_⟩, fun p h => clampScore_falsy p h, rfl⟩
  · exact le_max_left 0 _
  · exact max_le (by norm_num) (min_le_left 100 n)

/-- Witness for score_clamp_amended: a numeric score of 150 is clamped to
100 and a numeric score of -7 is clamped to 0. -/
theorem score_clamp_amended_witness :
    clampScore (.vobj [("score", .vnum 150)]) = .num 100 ∧
    clampScore (.vobj [("score", .vnum (-7))]) = .num 0 := by
  constructor
  · have h := (score_clamp_amended.1 (.vobj [("score", .vnum 150)]) 150 rfl (by decide)).1
    simpa using h
  · have h := (score_clamp_amended.1 (.vobj [("score", .vnum (-7))]) (-7) rfl (by decide)).1
    simpa using h

/-! ## Assembler totality (C8) -/

/-- C8 counterexample: assembly is not total over parsed objects of any
shape: a findings field holding the number 1 is truthy but has no map
method, so the findings map throws (modelled by none). -/
theorem assembler_counterexample :
    assembleReport (.vobj [("findings", .vnum 1)]) "" none "" = none := rfl

/-- C8 (amended): assembly of the AuditReport succeeds exactly when the
parsed payload's findings field is an array or falsy (absent included);
defaults substitute for every other missing or oddly typed field, but a
truthy non-array findings value makes the findings map throw. -/
theorem assembler_totality_amended (p : JSVal) (code : String) (fn : Option String)
    (now : String) :
    (assembleReport p code fn now).isSome =
      (isArr (getField p "findings") || !truthy (getField p "findings")) := by
  simp only [assembleReport, assembleFindings, jsOr, Option.isSome_map]
  cases hg : getField p "findings" with
  | vbool b => cases b <;> simp [truthy, isArr]
  | vnum n =>
    by_cases hn : n = 0
    · subst hn; simp [truthy, isArr]
    · simp [truthy, hn, isArr]
  | vstr s =>
    by_cases hs : s = ""
    · subst hs; simp [truthy, isArr]
    · simp [truthy, hs, isArr]
  | _ => simp [truthy, isArr]

/-! ## Card height and page breaks (C9) -/

/-- C9 counterexample: the height estimate is not strictly increasing in
the description length: lengths 50 and 51 land in the same ceiling bucket
and give equal estimates, all other fields equal. -/
theorem card_height_counterexample :
    cardHeightEst ⟨50, 50, false⟩ = cardHeightEst ⟨51, 50, false⟩ ∧ (50 : Nat) < 51 := by
  decide

/-- C9 (amended): the card height estimate is monotone (not strict) in
the description length, and strictly greater exactly when the ceiling
line estimate grows (so the 900-character description of the spec example
beats the 50-character one); the findings loop emits a page break for a
card exactly when the incoming cursor plus the pre-computed estimate
exceeds the page bottom margin, and every card whose estimate fits a
fresh page is drawn wholly above the bottom margin, so no such card is
split across pages. -/
theorem card_layout_amended :
    (∀ (d1 d2 rl : Nat) (snip : Bool), d1 ≤ d2 →
      cardHeightEst ⟨d1, rl, snip⟩ ≤ cardHeightEst ⟨d2, rl, snip⟩) ∧
    (∀ (d1 d2 rl : Nat) (snip : Bool), estLineCount d1 < estLineCount d2 →
      cardHeightEst ⟨d1, rl, snip⟩ < cardHeightEst ⟨d2, rl, snip⟩) ∧
    (∀ (cards : List CardData) (y : ℚ), 40 ≤ y →
      (∀ c ∈ cards, (cardHeightEst c : ℚ) ≤ pageBottom - 40) →
      ∀ e ∈ renderTrace cards y,
        e.2.2.1 = decide (e.2.1 + (cardHeightEst e.1 : ℚ) > pageBottom) ∧
        e.2.2.2 + (cardHeightEst e.1 : ℚ) ≤ pageBottom) := by
  refine ⟨?_, ?_, ?_⟩
  · intro d1 d2 rl snip hle
    have : estLineCount d1 ≤ estLineCount d2 := by
      unfold estLineCount
      have := Nat.div_le_div_right (c := 90) (Nat.add_le_add_right hle 89)
      omega
    unfold cardHeightEst
    simp only
    omega
  · intro d1 d2 rl snip hlt
    unfold cardHeightEst
    simp only
    omega
  · intro cards
    induction cards with
    | nil => intro y _ _ e he; simp [renderTrace] at he
    | cons c cs ih =>
      intro y hy hall e he
      rw [renderTrace] at he
      simp only [List.mem_cons] at he
      have hc : (cardHeightEst c : ℚ) ≤ pageBottom - 40 := hall c (by simp)
      have hge : (0 : ℚ) ≤ (cardHeightEst c : ℚ) := by positivity
      rcases he with rfl | he
      · refine ⟨rfl, ?_⟩
        by_cases hb : y + (cardHeightEst c : ℚ) > pageBottom
        · simp only [hb, decide_eq_true_eq, if_pos]
          linarith
        · simp only [hb, decide_eq_true_eq, if_neg, if_false]
          linarith
      · have h40 : (40 : ℚ) ≤ (if decide (y + (cardHeightEst c : ℚ) > pageBottom) = true
            then (40 : ℚ) else y) := by
          by_cases hb : y + (cardHeightEst c : ℚ) > pageBottom <;> simp [hb] <;> linarith
        exact ih _ (by linarith [h40]) (fun d hd => hall d (by simp [hd])) e he

/-- Witness for card_layout_amended: the 900-character description
strictly beats the 50-character one, and the first card of a trace
starting at the section top does not break while an overflowing second
card does. -/
theorem card_layout_amended_witness :
    cardHeightEst ⟨50, 50, false⟩ < cardHeightEst ⟨900, 50, false⟩ ∧
    cardHeightEst ⟨50, 50, false⟩ ≤ cardHeightEst ⟨900, 50, false⟩ := by
  constructor
  · exact card_layout_amended.2.1 50 900 50 false (by decide)
  · exact card_layout_amended.1 50 900 50 false (by decide)

/-! ## Finding id lemmas (C6) -/

theorem mapIdxFrom_length {α β : Type} (f : Nat → α → β) (l : List α) :
    ∀ k, (mapIdxFrom k f l).length = l.length := by
  induction l with
  | nil => intro k; rfl
  | cons a rest ih => intro k; simp [mapIdxFrom, ih]

theorem mapIdxFrom_get {α β : Type} (f : Nat → α → β) (l : List α) :
    ∀ (k i : Nat) (hi : i < (mapIdxFrom k f l).length) (hl : i < l.length),
      (mapIdxFrom k f l).get ⟨i, hi⟩ = f (k + i) (l.get ⟨i, hl⟩) := by
  induction l with
  | nil => intro k i hi hl; simp at hl
  | cons a rest ih =>
    intro k i hi hl
    cases i with
    | zero => simp [mapIdxFrom]
    | succ j =>
      have hj : j < (mapIdxFrom (k + 1) f rest).length := by
        simp only [mapIdxFrom, List.length_cons] at hi
        omega
      have hjl : j < rest.length := by simp at hl; omega
      have := ih (k + 1) j hj hjl
      simp only [mapIdxFrom, List.get_cons_succ, this]
      congr 1
      omega

theorem lookupLast_append_last (k : String) (v : JSVal) :
    ∀ l : List (String × JSVal), lookupLast k (l ++ [(k, v)]) = some v := by
  intro l
  induction l with
  | nil => simp [lookupLast]
  | cons p rest ih => simp [lookupLast, ih]

/-- The id the assembler appends is the id property the report reads. -/
theorem getField_withId (f : JSVal) (i : Nat) :
    getField (withId f i) "id" = .vstr (findingId i) := by
  simp [withId, getField, lookupLast_append_last]

theorem digitChar_toNat (d : Nat) (h : d < 10) : (digitChar d).toNat = 48 + d := by
  interval_cases d <;> decide

theorem digitsVal_append_digit (l : List Char) (c : Char) :
    digitsVal (l ++ [c]) = digitsVal l * 10 + (c.toNat - 48) := by
  simp [digitsVal, List.foldl_append]

theorem digitsVal_natCharsF :
    ∀ (fuel n : Nat), n < fuel → digitsVal (natCharsF fuel n) = n := by
  intro fuel
  induction fuel with
  | zero => intro n h; omega
  | succ g ih =>
    intro n h
    simp only [natCharsF]
    by_cases h10 : n < 10
    · simp [h10, digitsVal, digitChar_toNat n h10]
    · simp only [h10, if_false]
      rw [digitsVal_append_digit, ih (n / 10) (by omega), digitChar_toNat (n % 10) (by omega)]
      omega

theorem digitsVal_natChars (n : Nat) : digitsVal (natChars n) = n :=
  digitsVal_natCharsF (n + 1) n (by omega)

theorem foldl_zero_run :
    ∀ k : Nat, (List.replicate k '0').foldl (fun a c => a * 10 + (c.toNat - 48)) 0 = 0 := by
  intro k
  induction k with
  | zero => rfl
  | succ m ih => simpa [List.replicate_succ, digitsVal] using ih

theorem digitsVal_pad (ds : List Char) : digitsVal (padStart3 ds) = digitsVal ds := by
  unfold padStart3
  split
  · simp [digitsVal, List.foldl_append, foldl_zero_run]
  · rfl

/-- The sequence number is recoverable from the id text: the digits after
the TON- marker evaluate to the 1-based position. -/
theorem findingId_decode (i : Nat) : digitsVal ((findingId i).data.drop 4) = i + 1 := by
  show digitsVal (List.drop 4 ('T' :: 'O' :: 'N' :: '-' :: padStart3 (natChars (i + 1)))) = i + 1
  simp only [List.drop_succ_cons, List.drop_zero]
  rw [digitsVal_pad, digitsVal_natChars]

theorem findingId_injective (i j : Nat) (h : findingId i = findingId j) : i = j := by
  have := congrArg (fun s : String => digitsVal (s.data.drop 4)) h
  simp only [findingId_decode] at this
  omega

/-- C6: the assembled findings carry ids assigned from the TON- marker
followed by the zero-padded (to three digits) decimal 1-based position,
in payload order and regardless of any severity values: the id at
position i is exactly findingId i, the digits after the marker decode to
i + 1 (hence the ids strictly increase in assignment order), and ids are
pairwise distinct within one report. -/
theorem finding_ids_assigned (p : JSVal) (fs : List JSVal)
    (h : assembleFindings p = some fs) :
    (∀ i (hi : i < fs.length),
      getField (fs.get ⟨i, hi⟩) "id" = .vstr (findingId i) ∧
      digitsVal ((findingId i).data.drop 4) = i + 1) ∧
    (∀ i j, i < j → digitsVal ((findingId i).data.drop 4) < digitsVal ((findingId j).data.drop 4)) ∧
    (∀ i j (hi : i < fs.length) (hj : j < fs.length), i ≠ j →
      getField (fs.get ⟨i, hi⟩) "id" ≠ getField (fs.get ⟨j, hj⟩) "id") := by
  obtain ⟨xs, rfl⟩ : ∃ xs, fs = mapIdxFrom 0 (fun i f => withId f i) xs := by
    unfold assembleFindings at h
    rcases hm : jsOr (getField p "findings") (.varr []) with _ | _ | _ | _ | _ | _ | xs | _ <;>
      rw [hm] at h <;> simp_all
    exact ⟨xs, h.symm⟩
  have hget : ∀ i (hi : i < (mapIdxFrom 0 (fun i f => withId f i) xs).length),
      getField ((mapIdxFrom 0 (fun i f => withId f i) xs).get ⟨i, hi⟩) "id"
        = .vstr (findingId i) := by
    intro i hi
    have hl : i < xs.length := by rw [mapIdxFrom_length] at hi; exact hi
    rw [mapIdxFrom_get (fun i f => withId f i) xs 0 i hi hl]
    simpa using getField_withId (xs.get ⟨i, hl⟩) i
  refine ⟨fun i hi => ⟨hget i hi, findingId_decode i⟩, fun i j hij => ?_, fun i j hi hj hne => ?_⟩
  · simp only [findingId_decode]; omega
  · rw [hget i hi, hget j hj]
    intro he
    exact hne (findingId_injective i j (by injection he))

def sampleFindingsPayload : JSVal :=
  .vobj [("findings", .varr [.vobj [("severity", .vstr "low")],
                             .vobj [("severity", .vstr "critical")]])]

def sampleAssembledFs : List JSVal :=
  mapIdxFrom 0 (fun i f => withId f i)
    [.vobj [("severity", .vstr "low")], .vobj [("severity", .vstr "critical")]]

/-- Witness for finding_ids_assigned: a two-finding payload whose
severities are out of display order still gets TON-001 then TON-002. -/
theorem finding_ids_assigned_witness :
    getField (sampleAssembledFs.get ⟨0, by decide⟩) "id" = .vstr "TON-001" ∧
    getField (sampleAssembledFs.get ⟨1, by decide⟩) "id" = .vstr "TON-002" ∧
    getField (sampleAssembledFs.get ⟨0, by decide⟩) "id" ≠
      getField (sampleAssembledFs.get ⟨1, by decide⟩) "id" := by
  have h := finding_ids_assigned sampleFindingsPayload sampleAssembledFs rfl
  refine ⟨?_, ?_, h.2.2 0 1 (by decide) (by decide) (by decide)⟩
  · have e := (h.1 0 (by decide)).1
    rw [e]
    rfl
  · have e := (h.1 1 (by decide)).1
    rw [e]
    rfl

/-! ## Locate stage characterization (C5) -/

theorem dropWhile_all_then (p : Char → Bool) :
    ∀ (a l : List Char), (∀ x ∈ a, p x = true) → List.dropWhile p (a ++ l) = List.dropWhile p l := by
  intro a l
  induction a with
  | nil => intro _; rfl
  | cons c rest ih =>
    intro h
    have hc : p c = true := h c (by simp)
    simp only [List.cons_append, List.dropWhile_cons, hc, if_true]
    exact ih (fun x hx => h x (by simp [hx]))

theorem dropWhile_head_false (p : Char → Bool) :
    ∀ (l : List Char) (c : Char) (t : List Char), l.dropWhile p = c :: t → p c = false := by
  intro l
  induction l with
  | nil => intro c t h; simp [List.dropWhile] at h
  | cons d rest ih =>
    intro c t h
    by_cases hd : p d
    · simp only [List.dropWhile_cons, hd, if_true] at h
      exact ih c t h
    · simp only [List.dropWhile_cons, hd, if_false] at h
      cases h
      simpa using hd

theorem dropWhile_decomp (p : Char → Bool) (l : List Char) :
    ∃ a, l = a ++ l.dropWhile p ∧ ∀ x ∈ a, p x = true :=
  ⟨l.takeWhile p, (List.takeWhile_append_dropWhile p l).symm,
    fun _ hx => List.mem_takeWhile_imp hx⟩

theorem cutAfterLastClose_none_iff (l : List Char) :
    cutAfterLastClose l = none ↔ rbr ∉ l := by
  unfold cutAfterLastClose
  cases hd : l.reverse.dropWhile (fun c => c != rbr) with
  | nil =>
    constructor
    · intro _
      rw [List.dropWhile_eq_nil_iff] at hd
      intro hm
      have := hd rbr (by simpa using hm)
      simp at this
    · intro _; rfl
  | cons c t =>
    constructor
    · intro h; cases h
    · intro hm
      exfalso
      have hc := dropWhile_head_false _ _ _ _ hd
      have : c = rbr := by simpa using hc
      subst this
      obtain ⟨a, ha, _⟩ := dropWhile_decomp (fun c => c != rbr) l.reverse
      rw [hd] at ha
      have : rbr ∈ l.reverse := by rw [ha]; simp
      exact hm (by simpa using this)

theorem cutAfterLastClose_some_iff (l b : List Char) :
    cutAfterLastClose l = some b ↔
      ∃ mid post, l = mid ++ rbr :: post ∧ rbr ∉ post ∧ b = mid ++ [rbr] := by
  constructor
  · intro h
    unfold cutAfterLastClose at h
    cases hd : l.reverse.dropWhile (fun c => c != rbr) with
    | nil => rw [hd] at h; cases h
    | cons c t =>
      rw [hd] at h
      cases h
      have hc : c = rbr := by simpa using dropWhile_head_false _ _ _ _ hd
      subst hc
      obtain ⟨a, ha, hall⟩ := dropWhile_decomp (fun c => c != rbr) l.reverse
      rw [hd] at ha
      refine ⟨t.reverse, a.reverse, ?_, ?_, by simp⟩
      · have := congrArg List.reverse ha
        simpa using this
      · intro hm
        have := hall rbr (by simpa using hm)
        simp at this
  · rintro ⟨mid, post, rfl, hpost, rfl⟩
    unfold cutAfterLastClose
    have hrev : (mid ++ rbr :: post).reverse = post.reverse ++ rbr :: mid.reverse := by
      simp
    rw [hrev, dropWhile_all_then _ _ _ (fun x hx => by
      simp only [bne_iff_ne, ne_eq, decide_eq_true_eq]
      intro he
      exact hpost (he ▸ (by simpa using hx)))]
    simp [List.dropWhile_cons]

theorem locateL_skip (c : Char) (cs : List Char) (hc : ¬c = lbr) :
    locateL (c :: cs) = locateL cs := by
  simp [locateL, dropToBrace, hc]

theorem locateL_brace (cs : List Char) :
    locateL (lbr :: cs) =
      (match cutAfterLastClose cs with
       | some body => some (lbr :: body)
       | none => none) := by
  simp [locateL, dropToBrace]

theorem locateL_some_iff :
    ∀ (cs t : List Char), locateL cs = some t ↔
      ∃ pre mid post, cs = pre ++ lbr :: (mid ++ rbr :: post) ∧
        lbr ∉ pre ∧ rbr ∉ post ∧ t = lbr :: (mid ++ [rbr]) := by
  intro cs
  induction cs with
  | nil =>
    intro t
    constructor
    · intro h; cases h
    · rintro ⟨pre, mid, post, h, -⟩
      exact absurd h (by simp)
  | cons c rest ih =>
    intro t
    by_cases hc : c = lbr
    · subst hc
      rw [locateL_brace]
      constructor
      · intro h
        cases hcut : cutAfterLastClose rest with
        | none => rw [hcut] at h; cases h
        | some body =>
          rw [hcut] at h
          cases h
          obtain ⟨mid, post, rfl, hpost, rfl⟩ := (cutAfterLastClose_some_iff rest body).mp hcut
          exact ⟨[], mid, post, by simp, by simp, hpost, rfl⟩
      · rintro ⟨pre, mid, post, heq, hpre, hpost, rfl⟩
        have hpre0 : pre = [] := by
          cases pre with
          | nil => rfl
          | cons p ps =>
            exfalso
            have : p = lbr := by
              have := congrArg (fun l => List.head? l) heq
              simpa using this.symm
            exact hpre (by simp [this])
        subst hpre0
        simp only [List.nil_append, List.cons.injEq] at heq
        have : cutAfterLastClose rest = some (mid ++ [rbr]) :=
          (cutAfterLastClose_some_iff rest (mid ++ [rbr])).mpr ⟨mid, post, heq.2, hpost, rfl⟩
        rw [this]
    · rw [locateL_skip c rest hc, ih t]
      constructor
      · rintro ⟨pre, mid, post, rfl, hpre, hpost, rfl⟩
        refine ⟨c :: pre, mid, post, by simp, ?_, hpost, rfl⟩
        intro hm
        rcases List.mem_cons.mp hm with h | h
        · exact hc h.symm
        · exact hpre h
      · rintro ⟨pre, mid, post, heq, hpre, hpost, rfl⟩
        cases pre with
        | nil =>
          exfalso
          have : c = lbr := by
            have := congrArg (fun l => List.head? l) heq
            simpa using this
          exact hc this
        | cons p ps =>
          simp only [List.cons_append, List.cons.injEq] at heq
          exact ⟨ps, mid, post, heq.2, fun hm => hpre (by simp [hm]), hpost, rfl⟩

theorem locateL_none_iff :
    ∀ cs : List Char, locateL cs = none ↔
      ¬ ∃ pre mid post, cs = pre ++ lbr :: (mid ++ rbr :: post) := by
  intro cs
  induction cs with
  | nil =>
    constructor
    · rintro - ⟨pre, mid, post, h⟩
      exact absurd h (by simp)
    · intro _; rfl
  | cons c rest ih =>
    by_cases hc : c = lbr
    · subst hc
      rw [locateL_brace]
      constructor
      · intro h hex
        cases hcut : cutAfterLastClose rest with
        | some body => rw [hcut] at h; cases h
        | none =>
          have hnm : rbr ∉ rest := (cutAfterLastClose_none_iff rest).mp hcut
          obtain ⟨pre, mid, post, heq⟩ := hex
          cases pre with
          | nil =>
            simp only [List.nil_append, List.cons.injEq] at heq
            exact hnm (by rw [heq.2]; simp)
          | cons p ps =>
            simp only [List.cons_append, List.cons.injEq] at heq
            exact hnm (by rw [heq.2]; simp)
      · intro hex
        cases hcut : cutAfterLastClose rest with
        | some body =>
          exfalso
          obtain ⟨mid, post, hr, hpost, -⟩ := (cutAfterLastClose_some_iff rest body).mp hcut
          exact hex ⟨[], mid, post, by simp [hr]⟩
        | none => rfl
    · rw [locateL_skip c rest hc, ih]
      constructor
      · intro h ⟨pre, mid, post, heq⟩
        cases pre with
        | nil =>
          have : c = lbr := by
            have := congrArg (fun l => List.head? l) heq
            simpa using this
          exact hc this
        | cons p ps =>
          simp only [List.cons_append, List.cons.injEq] at heq
          exact h ⟨ps, mid, post, heq.2⟩
      · intro h ⟨pre, mid, post, heq⟩
        exact h ⟨c :: pre, mid, post, by simp [heq]⟩

/-- C5 counterexample: the one-character buffer holding just an open
brace contains an open brace, yet location fails (the regex needs a close
brace after it) and extraction raises the failed-to-parse error. -/
theorem locate_claim_counterexample :
    lbr ∈ [lbr] ∧ locateL [lbr] = none ∧ extractPayloadL [lbr] = .error .extractionFailed :=
  ⟨by simp, rfl, rfl⟩

/-- C5 (amended): the locate stage takes the substring from the first
open brace to the last close brace inclusive; it succeeds exactly when
the buffer contains an open brace with some close brace after it, and the
extraction error of auditContract is raised exactly when location fails -
so a buffer containing an open brace but no later close brace also fails,
not only a buffer with no open brace at all. -/
theorem locate_stage_amended (cs : List Char) :
    (∀ t, locateL cs = some t ↔
      ∃ pre mid post, cs = pre ++ lbr :: (mid ++ rbr :: post) ∧
        lbr ∉ pre ∧ rbr ∉ post ∧ t = lbr :: (mid ++ [rbr])) ∧
    (locateL cs = none ↔ ¬ ∃ pre mid post, cs = pre ++ lbr :: (mid ++ rbr :: post)) ∧
    (extractPayloadL cs = .error .extractionFailed ↔ locateL cs = none) := by
  refine ⟨locateL_some_iff cs, locateL_none_iff cs, ?_⟩
  unfold extractPayloadL
  cases hl : locateL cs with
  | none => simp
  | some cand =>
    simp only
    constructor
    · intro h
      cases hp : jsonParseL (escapeStringsL cand) with
      | some v => rw [hp] at h; cases h
      | none =>
        rw [hp] at h
        cases hp2 : jsonParseL (stripCtlL (escapeStringsL cand)) with
        | some v => rw [hp2] at h; cases h
        | none => rw [hp2] at h; cases h
    · intro h; cases h

/-! ## Batch partial failure (C2) -/

theorem length_filterMap_toOption (items : List (Except AuditError AuditReport)) :
    (batchSuccesses items).length =
      (items.filter (fun r => r.toOption.isSome)).length := by
  induction items with
  | nil => rfl
  | cons r rest ih =>
    cases r <;> simp [batchSuccesses, List.filterMap_cons, Except.toOption] at * <;> omega

theorem batchSuccesses_nonempty (items : List (Except AuditError AuditReport))
    (h : ∃ r ∈ items, r.toOption.isSome) : batchSuccesses items ≠ [] := by
  obtain ⟨r, hr, hsome⟩ := h
  intro hnil
  unfold batchSuccesses at hnil
  rw [List.filterMap_eq_nil_iff] at hnil
  rw [hnil r hr] at hsome
  cases hsome

/-- C2: the batch loop isolates per item failure: whenever at least one
item succeeds, a BatchReport is produced whose reports are exactly the
successful items in input order (failing items contribute nothing and do
not abort later items) and whose totalContracts is the original input
count; and the batch as a whole fails exactly when every item fails. -/
theorem batch_partial_failure (now : String) (items : List (Except AuditError AuditReport)) :
    ((∃ r ∈ items, r.toOption.isSome) →
      ∃ b, runBatch now items = some b ∧
        b.reports = batchSuccesses items ∧
        b.totalContracts = items.length ∧
        b.reports.length = (items.filter (fun r => r.toOption.isSome)).length) ∧
    (runBatch now items = none ↔ ∀ r ∈ items, r.toOption = none) := by
  constructor
  · intro hex
    have hne := batchSuccesses_nonempty items hex
    refine ⟨{ auditedAt := now, totalContracts := items.length,
              reports := batchSuccesses items,
              comparison := buildComparison (batchSuccesses items) },
            ?_, rfl, rfl, length_filterMap_toOption items⟩
    unfold runBatch
    rw [if_neg (by simpa [List.isEmpty_iff] using hne)]
  · unfold runBatch
    constructor
    · intro h
      by_cases hemp : (batchSuccesses items).isEmpty
      · intro r hr
        unfold batchSuccesses at hemp
        rw [List.isEmpty_iff, List.filterMap_eq_nil_iff] at hemp
        exact hemp r hr
      · rw [if_neg hemp] at h
        cases h
    · intro hall
      rw [if_pos ?_]
      rw [List.isEmpty_iff]
      unfold batchSuccesses
      rw [List.filterMap_eq_nil_iff]
      exact hall

def sampleReport (name : String) (sc : Int) : AuditReport :=
  { contractName := name
    language := .func
    linesOfCode := 1
    auditedAt := ""
    overallRisk := .vstr "low"
    summary := .vstr ""
    findings := []
    gasAnalysis := .vstr ""
    architectureNotes := .vstr ""
    score := .num sc }

def sampleBatchItems : List (Except AuditError AuditReport) :=
  [.ok (sampleReport "a" 80), .error .malformedPayload, .ok (sampleReport "b" 30)]

/-- Witness for batch_partial_failure: a batch of three items whose
second fails extraction still yields a report over two successes with
totalContracts three. -/
theorem batch_partial_failure_witness :
    runBatch "t" sampleBatchItems ≠ none ∧
    (runBatch "t" sampleBatchItems).map (fun b => (b.totalContracts, b.reports.length))
      = some (3, 2) := by
  obtain ⟨b, h1, h2, h3, h4⟩ := (batch_partial_failure "t" sampleBatchItems).1
    ⟨.ok (sampleReport "a" 80), by simp [sampleBatchItems], rfl⟩
  constructor
  · rw [h1]; exact Option.some_ne_none b
  · rw [h1]
    have ht : b.totalContracts = 3 := by rw [h3]; rfl
    have hr : b.reports.length = 2 := by rw [h4]; rfl
    simp [Option.map, ht, hr]

/-! ## Risk ranking order (C7) -/

def entryOf (r : AuditReport) : RankEntry :=
  ⟨r.contractName, r.score, r.overallRisk⟩

theorem sortInsert_perm (a : RankEntry) :
    ∀ l : List RankEntry, (sortInsert a l).Perm (a :: l) := by
  intro l
  induction l with
  | nil => exact List.Perm.refl _
  | cons b bs ih =>
    unfold sortInsert
    by_cases hr : rankLe a b
    · rw [if_pos hr]
    · rw [if_neg hr]
      exact ((ih.cons b).trans (List.Perm.swap a b bs))

theorem sortRanking_perm : ∀ l : List RankEntry, (sortRanking l).Perm l := by
  intro l
  induction l with
  | nil => exact List.Perm.refl _
  | cons a rest ih =>
    exact (sortInsert_perm a (sortRanking rest)).trans (ih.cons a)

theorem mem_sortInsert (a x : RankEntry) (l : List RankEntry)
    (h : x ∈ sortInsert a l) : x = a ∨ x ∈ l := by
  have := (sortInsert_perm a l).mem_iff.mp h
  simpa using this

theorem rankLe_neg (a b : RankEntry) (ha : a.score ≠ .nan) (hb : b.score ≠ .nan)
    (h : rankLe a b = false) : rankLe b a = true := by
  cases hsa : a.score with
  | nan => exact absurd hsa ha
  | num x =>
    cases hsb : b.score with
    | nan => exact absurd hsb hb
    | num y =>
      unfold rankLe jsSubNum at *
      rw [hsa, hsb] at h
      rw [hsb, hsa]
      simp only [decide_eq_false_iff_not, not_le] at h
      simp only [decide_eq_true_eq]
      omega

theorem rankLe_trans (a b c : RankEntry) (ha : a.score ≠ .nan) (hb : b.score ≠ .nan)
    (hc : c.score ≠ .nan) (h1 : rankLe a b = true) (h2 : rankLe b c = true) :
    rankLe a c = true := by
  cases hsa : a.score with
  | nan => exact absurd hsa ha
  | num x =>
    cases hsb : b.score with
    | nan => exact absurd hsb hb
    | num y =>
      cases hsc : c.score with
      | nan => exact absurd hsc hc
      | num z =>
        unfold rankLe jsSubNum at *
        rw [hsa, hsb] at h1
        rw [hsb, hsc] at h2
        rw [hsa, hsc]
        simp only [decide_eq_true_eq] at *
        omega

theorem sortInsert_sorted (a : RankEntry) (ha : a.score ≠ .nan) :
    ∀ l : List RankEntry, (∀ e ∈ l, e.score ≠ .nan) →
      List.Pairwise (fun x y => rankLe x y = true) l →
      List.Pairwise (fun x y => rankLe x y = true) (sortInsert a l) := by
  intro l
  induction l with
  | nil => intro _ _; simp [sortInsert]
  | cons b bs ih =>
    intro hnum hp
    have hb : b.score ≠ .nan := hnum b (by simp)
    unfold sortInsert
    by_cases hr : rankLe a b
    · rw [if_pos hr]
      refine List.Pairwise.cons ?_ hp
      intro w hw
      rcases List.mem_cons.mp hw with rfl | hw2
      · exact hr
      · exact rankLe_trans a b w ha hb (hnum w (by simp [hw2])) hr
          (List.rel_of_pairwise_cons hp hw2)
    · rw [if_neg hr]
      refine List.Pairwise.cons ?_ ?_
      · intro w hw
        rcases mem_sortInsert a w bs hw with hwa | hw2
        · subst hwa
          exact rankLe_neg _ _ ha hb (by simpa using hr)
        · exact List.rel_of_pairwise_cons hp hw2
      · exact ih (fun e he => hnum e (by simp [he])) (List.Pairwise.of_cons hp)

theorem sortRanking_sorted :
    ∀ l : List RankEntry, (∀ e ∈ l, e.score ≠ .nan) →
      List.Pairwise (fun x y => rankLe x y = true) (sortRanking l) := by
  intro l
  induction l with
  | nil => simp [sortRanking]
  | cons a rest ih =>
    intro hnum
    refine sortInsert_sorted a (hnum a (by simp)) (sortRanking rest) ?_ ?_
    · intro e he
      exact hnum e (by simp [(sortRanking_perm rest).mem_iff.mp he])
    · exact ih (fun e he => hnum e (by simp [he]))

/-- C7: for every list of successful reports (all of whose scores are
numbers, as assembled scores are unless the payload carried a truthy
non-numeric score), the batch riskRanking is sorted ascending by score
and is a permutation of the report entries; for a non-empty list,
mostVulnerable is the contractName of the first ranking entry and safest
that of the last; for the empty list both are the fixed dash
placeholder. -/
theorem risk_ranking_sorted (reports : List AuditReport)
    (hnum : ∀ r ∈ reports, r.score ≠ .nan) :
    List.Pairwise (fun a b => rankLe a b = true) (buildComparison reports).riskRanking ∧
    ((buildComparison reports).riskRanking).Perm (reports.map entryOf) ∧
    (reports ≠ [] →
      ∃ e1 e2,
        (buildComparison reports).riskRanking.head? = some e1 ∧
        (buildComparison reports).riskRanking.getLast? = some e2 ∧
        (buildComparison reports).mostVulnerable = e1.contractName ∧
        (buildComparison reports).safest = e2.contractName) ∧
    ((buildComparison []).mostVulnerable = "—" ∧ (buildComparison []).safest = "—") := by
  have hrank : (buildComparison reports).riskRanking =
      sortRanking (reports.map entryOf) := rfl
  have hnum2 : ∀ e ∈ reports.map entryOf, e.score ≠ .nan := by
    intro e he
    obtain ⟨r, hr, rfl⟩ := List.mem_map.mp he
    exact hnum r hr
  refine ⟨hrank ▸ sortRanking_sorted _ hnum2, hrank ▸ sortRanking_perm _, ?_, rfl, rfl⟩
  intro hne
  have hlen : (buildComparison reports).riskRanking ≠ [] := by
    rw [hrank]
    intro h0
    have := (sortRanking_perm (reports.map entryOf)).length_eq
    rw [h0] at this
    simp only [List.length_nil] at this
    exact hne (by
      cases reports with
      | nil => rfl
      | cons r rs => simp at this)
  obtain ⟨e1, t1, h1⟩ := List.exists_cons_of_ne_nil hlen
  refine ⟨e1, (buildComparison reports).riskRanking.getLast hlen, ?_, ?_, ?_, ?_⟩
  · rw [h1]; rfl
  · exact (List.getLast?_eq_getLast _ hlen).symm ▸ rfl
  · show (((buildComparison reports).riskRanking.head?).map (fun e => e.contractName)).getD "—"
        = e1.contractName
    rw [h1]
    rfl
  · show (((buildComparison reports).riskRanking.getLast?).map (fun e => e.contractName)).getD "—"
        = ((buildComparison reports).riskRanking.getLast hlen).contractName
    rw [List.getLast?_eq_getLast _ hlen]
    rfl

/-- Witness for risk_ranking_sorted: two reports with scores 80 and 30
rank the 30-score contract most vulnerable and the 80-score one
safest. -/
theorem risk_ranking_sorted_witness :
    (buildComparison [sampleReport "a" 80, sampleReport "b" 30]).mostVulnerable = "b" ∧
    (buildComparison [sampleReport "a" 80, sampleReport "b" 30]).safest = "a" := by
  obtain ⟨-, -, h3, -⟩ := risk_ranking_sorted [sampleReport "a" 80, sampleReport "b" 30]
    (by intro r hr; fin_cases hr <;> simp [sampleReport])
  obtain ⟨e1, e2, hh, hl, hm, hs⟩ := h3 (by simp)
  constructor
  · have hv : (buildComparison [sampleReport "a" 80, sampleReport "b" 30]).riskRanking.head?
        = some (entryOf (sampleReport "b" 30)) := rfl
    have he1 := Option.some.inj (hv.symm.trans hh)
    rw [hm, ← he1]
    rfl
  · have hv : (buildComparison [sampleReport "a" 80, sampleReport "b" 30]).riskRanking.getLast?
        = some (entryOf (sampleReport "a" 80)) := rfl
    have he2 := Option.some.inj (hv.symm.trans hl)
    rw [hs, ← he2]
    rfl

/-! ## Round-trip machinery: numbers -/

/-- A remainder that cannot extend a number token. -/
def numStop : List Char → Bool
  | [] => true
  | c :: _ => !(isDigitCh c)

theorem natCharsF_spec :
    ∀ (fuel n : Nat), n < fuel →
      ∃ d t, natCharsF fuel n = d :: t ∧ isDigitCh d = true ∧
        (∀ c ∈ t, isDigitCh c = true) ∧ (d = '0' → n = 0 ∧ t = []) := by
  intro fuel
  induction fuel with
  | zero => intro n h; omega
  | succ g ih =>
    intro n h
    simp only [natCharsF]
    by_cases h10 : n < 10
    · refine ⟨digitChar n, [], by simp [h10], ?_, by simp, ?_⟩
      · simp [isDigitCh, digitChar_toNat n h10]
        omega
      · intro hd
        have := congrArg Char.toNat hd
        rw [digitChar_toNat n h10] at this
        have h0 : ('0').toNat = 48 := by decide
        rw [h0] at this
        exact ⟨by omega, rfl⟩
    · obtain ⟨d, t, heq, hd, ht, hz⟩ := ih (n / 10) (by omega)
      rw [if_neg h10, heq]
      refine ⟨d, t ++ [digitChar (n % 10)], by simp, hd, ?_, ?_⟩
      · intro c hc
        rcases List.mem_append.mp hc with hc1 | hc2
        · exact ht c hc1
        · have : c = digitChar (n % 10) := by simpa using hc2
          subst this
          simp [isDigitCh, digitChar_toNat (n % 10) (by omega)]
          omega
      · intro hdz
        exact absurd (hz hdz).1 (by omega)

theorem natChars_spec (n : Nat) :
    ∃ d t, natChars n = d :: t ∧ isDigitCh d = true ∧
      (∀ c ∈ t, isDigitCh c = true) ∧ (d = '0' → n = 0 ∧ t = []) :=
  natCharsF_spec (n + 1) n (by omega)

theorem lexDigits_exact :
    ∀ (ds rest : List Char), (∀ c ∈ ds, isDigitCh c = true) → numStop rest = true →
      lexDigits (ds ++ rest) = (ds, rest) := by
  intro ds
  induction ds with
  | nil =>
    intro rest _ hstop
    cases rest with
    | nil => rfl
    | cons c t =>
      simp only [numStop, Bool.not_eq_true'] at hstop
      simp [lexDigits, hstop]
  | cons d t ih =>
    intro rest hall hstop
    have hd : isDigitCh d = true := hall d (by simp)
    simp only [List.cons_append, lexDigits, hd, if_true]
    rw [show t.append rest = t ++ rest from rfl,
      ih rest (fun c hc => hall c (by simp [hc])) hstop]

theorem digit_ne_minus (c : Char) (h : isDigitCh c = true) : ¬c = '-' := by
  intro he
  subst he
  simp [isDigitCh] at h

theorem lexInt_nonminus (c : Char) (cs : List Char) (hc : ¬c = '-') :
    lexInt (c :: cs) =
      (match lexDigits (c :: cs) with
       | ([], _) => none
       | (d :: ds, r) =>
         if d = '0' ∧ ds ≠ [] then none
         else some ((digitsVal (d :: ds) : Int), r)) := by
  rw [lexInt.eq_def]
  split
  · rename_i heq
    exfalso
    apply hc
    injection heq with h1 h2
  · rfl

theorem lexInt_intChars (i : Int) (rest : List Char) (hstop : numStop rest = true) :
    lexInt (intChars i ++ rest) = some (i, rest) := by
  obtain ⟨d, t, heq, hd, ht, hz⟩ := natChars_spec i.natAbs
  have hmatch : lexDigits (d :: (t ++ rest)) = (d :: t, rest) := by
    rw [show d :: (t ++ rest) = (d :: t) ++ rest from rfl]
    refine lexDigits_exact (d :: t) rest ?_ hstop
    intro c hc
    rcases List.mem_cons.mp hc with rfl | hc2
    · exact hd
    · exact ht c hc2
  have hz2 : ¬(d = '0' ∧ t ≠ []) := by
    rintro ⟨hdz, htne⟩
    exact htne (hz hdz).2
  have hval : digitsVal (d :: t) = i.natAbs := heq ▸ digitsVal_natChars i.natAbs
  by_cases hneg : i < 0
  · have harg : intChars i ++ rest = '-' :: (d :: (t ++ rest)) := by
      simp [intChars, hneg, heq]
    rw [harg]
    simp only [lexInt]
    rw [hmatch]
    simp only [hz2, if_false]
    rw [hval]
    have : -(i.natAbs : Int) = i := by omega
    rw [this]
  · have harg : intChars i ++ rest = d :: (t ++ rest) := by
      simp [intChars, hneg, heq]
    rw [harg, lexInt_nonminus d (t ++ rest) (digit_ne_minus d hd), hmatch]
    simp only [hz2, if_false]
    rw [hval]
    have : (i.natAbs : Int) = i := by omega
    rw [this]

/-! ## Round-trip machinery: strings -/

/-- One strict-escaped character is consumed back into itself. -/
theorem lexStrBody_step (c : Char) (hc : okStrChar c = true) (acc tail : List Char) :
    lexStrBody acc (strictChar c ++ tail) = lexStrBody (c :: acc) tail := by
  by_cases h1 : c = qu
  · subst h1
    show lexStrBody acc (bsl :: qu :: tail) = _
    simp [lexStrBody, escMap, show ¬bsl = qu from by decide, show ¬qu = 'u' from by decide]
  · by_cases h2 : c = bsl
    · subst h2
      show lexStrBody acc (bsl :: bsl :: tail) = _
      simp [lexStrBody, escMap, show ¬bsl = qu from by decide, show ¬bsl = 'u' from by decide]
    · by_cases h3 : c = nlc
      · subst h3
        show lexStrBody acc (bsl :: 'n' :: tail) = _
        simp [lexStrBody, escMap, show ¬bsl = qu from by decide, show ('n' : Char) ≠ 'u' from by decide,
          show ¬('n' : Char) = qu from by decide, show ¬('n' : Char) = bsl from by decide,
          show ¬('n' : Char) = '/' from by decide]
      · by_cases h4 : c = crc
        · subst h4
          show lexStrBody acc (bsl :: 'r' :: tail) = _
          simp [lexStrBody, escMap, show ¬bsl = qu from by decide, show ('r' : Char) ≠ 'u' from by decide,
            show ¬('r' : Char) = qu from by decide, show ¬('r' : Char) = bsl from by decide,
            show ¬('r' : Char) = '/' from by decide, show ¬('r' : Char) = 'n' from by decide]
        · by_cases h5 : c = tbc
          · subst h5
            show lexStrBody acc (bsl :: 't' :: tail) = _
            simp [lexStrBody, escMap, show ¬bsl = qu from by decide, show ('t' : Char) ≠ 'u' from by decide,
              show ¬('t' : Char) = qu from by decide, show ¬('t' : Char) = bsl from by decide,
              show ¬('t' : Char) = '/' from by decide, show ¬('t' : Char) = 'n' from by decide,
              show ¬('t' : Char) = 'r' from by decide]
          · have hchar : strictChar c = [c] := by
              unfold strictChar
              rw [if_neg h1, if_neg h2, if_neg h3, if_neg h4, if_neg h5]
            have hge32 : 32 ≤ c.toNat := by
              simp only [okStrChar, Bool.or_eq_true, decide_eq_true_eq] at hc
              rcases hc with ((h | h) | h) | h
              · exact h
              · exact absurd h h3
              · exact absurd h h4
              · exact absurd h h5
            have hge : ¬(c.toNat ≤ 31) := by omega
            rw [hchar]
            show lexStrBody acc (c :: tail) = _
            conv_lhs => rw [lexStrBody.eq_def]
            simp [h1, h2, hge]

/-- Consuming a strict-escaped run stops at the closing quote with the
original characters recovered. -/
theorem lexStrBody_run :
    ∀ (l acc rest : List Char), l.all okStrChar = true →
      lexStrBody acc (l.flatMap strictChar ++ qu :: rest)
        = some (String.mk (acc.reverse ++ l), rest) := by
  intro l
  induction l with
  | nil =>
    intro acc rest _
    conv_lhs => rw [lexStrBody.eq_def]
    simp
  | cons c t ih =>
    intro acc rest hall
    simp only [List.all_cons, Bool.and_eq_true] at hall
    rw [List.flatMap_cons, List.append_assoc, lexStrBody_step c hall.1]
    rw [ih (c :: acc) rest hall.2]
    simp

/-! ## Round-trip machinery: values -/

theorem skipWs_cons_id (c : Char) (t : List Char) (h : isWsChar c = false) :
    skipWsL (c :: t) = c :: t := by
  simp [skipWsL, List.dropWhile_cons, h]

theorem digit_dispatch (c : Char) (h : isDigitCh c = true) :
    isWsChar c = false ∧ ¬c = 'n' ∧ ¬c = 't' ∧ ¬c = 'f' ∧ ¬c = qu ∧ ¬c = '[' ∧
      ¬c = lbr ∧ ¬c = ']' ∧ ¬c = rbr := by
  refine ⟨?_, ?_, ?_, ?_, ?_, ?_, ?_, ?_, ?_⟩
  · have h1 : ¬c = ' ' := fun he => by subst he; simp [isDigitCh] at h
    have h2 : ¬c = nlc := fun he => by subst he; simp [isDigitCh, nlc] at h
    have h3 : ¬c = crc := fun he => by subst he; simp [isDigitCh, crc] at h
    have h4 : ¬c = tbc := fun he => by subst he; simp [isDigitCh, tbc] at h
    simp [isWsChar, h1, h2, h3, h4]
  all_goals intro he; subst he; simp [isDigitCh, qu, lbr, rbr] at h

theorem minus_dispatch :
    isWsChar '-' = false ∧ ¬('-' : Char) = 'n' ∧ ¬('-' : Char) = 't' ∧ ¬('-' : Char) = 'f' ∧
      ¬('-' : Char) = qu ∧ ¬('-' : Char) = '[' ∧ ¬('-' : Char) = lbr := by
  refine ⟨?_, ?_, ?_, ?_, ?_, ?_, ?_⟩ <;> decide

theorem parseV_to_lexInt (fuel : Nat) (c : Char) (r : List Char)
    (hws : isWsChar c = false) (hn : ¬c = 'n') (ht : ¬c = 't') (hf : ¬c = 'f')
    (hq : ¬c = qu) (hbk : ¬c = '[') (hbc : ¬c = lbr)
    (hg : (decide (c = '-') || isDigitCh c) = true) :
    parseV (fuel + 1) (c :: r) =
      (match lexInt (c :: r) with
       | some (n, r2) => some (.vnum n, r2)
       | none => none) := by
  simp only [parseV]
  rw [skipWs_cons_id _ _ hws]
  simp [hn, ht, hf, hq, hbk, hbc, hg]

theorem parseV_qu (f : Nat) (r : List Char) :
    parseV (f + 1) (qu :: r) =
      (match lexStrBody [] r with
       | some (s, r2) => some (.vstr s, r2)
       | none => none) := by
  simp only [parseV]
  rw [skipWs_cons_id _ _ (by decide)]
  rfl

theorem parseV_brk (f : Nat) (r : List Char) :
    parseV (f + 1) ('[' :: r) =
      (match skipWsL r with
       | d :: r2 =>
         if d = ']' then some (.varr [], r2)
         else
           match parseItems f (d :: r2) with
           | some (xs, r3) => some (.varr xs, r3)
           | none => none
       | [] => none) := by
  simp only [parseV]
  rw [skipWs_cons_id _ _ (by decide)]
  rfl

theorem parseV_brc (f : Nat) (r : List Char) :
    parseV (f + 1) (lbr :: r) =
      (match skipWsL r with
       | d :: r2 =>
         if d = rbr then some (.vobj [], r2)
         else
           match parseProps f (d :: r2) with
           | some (fs, r3) => some (.vobj fs, r3)
           | none => none
       | [] => none) := by
  simp only [parseV]
  rw [skipWs_cons_id _ _ (by decide)]
  rfl

theorem strictRender_head (v : JSVal) (hv : wfJson v = true) :
    ∃ c t, strictRender v = c :: t ∧ isWsChar c = false ∧ ¬c = ']' ∧ ¬c = rbr := by
  cases v with
  | vnull => exact ⟨'n', _, rfl, by decide, by decide, by decide⟩
  | vundefined => simp [wfJson] at hv
  | vnan => simp [wfJson] at hv
  | vbool b =>
    cases b with
    | true => exact ⟨'t', ['r', 'u', 'e'], rfl, by decide, by decide, by decide⟩
    | false => exact ⟨'f', ['a', 'l', 's', 'e'], rfl, by decide, by decide, by decide⟩
  | vnum n =>
    by_cases hneg : n < 0
    · exact ⟨'-', natChars n.natAbs, by simp [strictRender, intChars, hneg], by decide, by decide,
        by decide⟩
    · obtain ⟨d, t, heq, hd, -, -⟩ := natChars_spec n.natAbs
      obtain ⟨hws, -, -, -, -, -, -, hbr, hbc⟩ := digit_dispatch d hd
      exact ⟨d, t, by simp [strictRender, intChars, hneg, heq], hws, hbr, hbc⟩
  | vstr s =>
    exact ⟨qu, s.data.flatMap strictChar ++ [qu], rfl, by decide, by decide, by decide⟩
  | varr xs => exact ⟨'[', _, rfl, by decide, by decide, by decide⟩
  | vobj fs => exact ⟨lbr, _, rfl, by decide, by decide, by decide⟩

theorem strictItems_decomp (x : JSVal) (xs : List JSVal) :
    ∃ u, strictItems (x :: xs) = strictRender x ++ u := by
  cases xs with
  | nil => exact ⟨[], by simp [strictItems]⟩
  | cons y ys => exact ⟨',' :: strictItems (y :: ys), rfl⟩

theorem skipWs_render_id (v : JSVal) (hv : wfJson v = true) (u : List Char) :
    skipWsL (strictRender v ++ u) = strictRender v ++ u := by
  obtain ⟨c, t, heq, hws, -, -⟩ := strictRender_head v hv
  rw [heq, List.cons_append, skipWs_cons_id _ _ hws]


theorem numStop_cons (c : Char) (t : List Char) (h : isDigitCh c = false) :
    numStop (c :: t) = true := by
  simp [numStop, h]

/-- The tail of a rendered member list after the first member's value. -/
def propsTail : List (String × JSVal) → List Char
  | [] => []
  | p :: ps => ',' :: strictProps (p :: ps)

mutual
theorem rtV : ∀ (v : JSVal) (fuel : Nat) (rest : List Char),
    wfJson v = true → (strictRender v).length < fuel → numStop rest = true →
    parseV fuel (strictRender v ++ rest) = some (v, rest)
  | .vnull, fuel, rest, _, hf, _ => by
    cases fuel with
    | zero => exact absurd hf (Nat.not_lt_zero _)
    | succ f =>
      show parseV (f + 1) ('n' :: 'u' :: 'l' :: 'l' :: rest) = _
      simp only [parseV]
      rw [skipWs_cons_id _ _ (by decide)]
      rfl
  | .vundefined, fuel, rest, hv, _, _ => by simp [wfJson] at hv
  | .vnan, fuel, rest, hv, _, _ => by simp [wfJson] at hv
  | .vbool true, fuel, rest, _, hf, _ => by
    cases fuel with
    | zero => exact absurd hf (Nat.not_lt_zero _)
    | succ f =>
      show parseV (f + 1) ('t' :: 'r' :: 'u' :: 'e' :: rest) = _
      simp only [parseV]
      rw [skipWs_cons_id _ _ (by decide)]
      rfl
  | .vbool false, fuel, rest, _, hf, _ => by
    cases fuel with
    | zero => exact absurd hf (Nat.not_lt_zero _)
    | succ f =>
      show parseV (f + 1) ('f' :: 'a' :: 'l' :: 's' :: 'e' :: rest) = _
      simp only [parseV]
      rw [skipWs_cons_id _ _ (by decide)]
      rfl
  | .vnum n, fuel, rest, _, hf, hstop => by
    cases fuel with
    | zero => exact absurd hf (Nat.not_lt_zero _)
    | succ f =>
      have hlex : lexInt (intChars n ++ rest) = some (n, rest) := lexInt_intChars n rest hstop
      by_cases hneg : n < 0
      · have harg : strictRender (.vnum n) ++ rest = '-' :: (natChars n.natAbs ++ rest) := by
          simp [strictRender, intChars, hneg]
        obtain ⟨hws, hn, ht, hf2, hq, hbk, hbc⟩ := minus_dispatch
        rw [harg, parseV_to_lexInt f '-' _ hws hn ht hf2 hq hbk hbc (by simp)]
        rw [show '-' :: (natChars n.natAbs ++ rest) = intChars n ++ rest from by
          simp [intChars, hneg]]
        rw [hlex]
      · obtain ⟨d, t, heq, hd, -, -⟩ := natChars_spec n.natAbs
        obtain ⟨hws, hn, ht, hf2, hq, hbk, hbc, -, -⟩ := digit_dispatch d hd
        have harg : strictRender (.vnum n) ++ rest = d :: (t ++ rest) := by
          simp [strictRender, intChars, hneg, heq]
        rw [harg, parseV_to_lexInt f d _ hws hn ht hf2 hq hbk hbc (by simp [hd])]
        rw [show d :: (t ++ rest) = intChars n ++ rest from by simp [intChars, hneg, heq]]
        rw [hlex]
  | .vstr s, fuel, rest, hv, hf, _ => by
    cases fuel with
    | zero => exact absurd hf (Nat.not_lt_zero _)
    | succ f =>
      have harg : strictRender (.vstr s) ++ rest
          = qu :: (s.data.flatMap strictChar ++ (qu :: rest)) := by
        simp [strictRender, strictStr]
      rw [harg, parseV_qu]
      rw [lexStrBody_run s.data [] rest (by simpa [wfJson, wfStr] using hv)]
      rfl
  | .varr [], fuel, rest, _, hf, _ => by
    cases fuel with
    | zero => exact absurd hf (Nat.not_lt_zero _)
    | succ f =>
      have harg : strictRender (.varr []) ++ rest = '[' :: (']' :: rest) := by
        simp [strictRender, strictItems]
      rw [harg, parseV_brk]
      rw [skipWs_cons_id _ _ (by decide)]
      rfl
  | .varr (x :: xs), fuel, rest, hv, hf, _ => by
    cases fuel with
    | zero => exact absurd hf (Nat.not_lt_zero _)
    | succ f =>
      have hwx : wfJson x = true := by
        have : wfItems (x :: xs) = true := hv
        simp [wfItems] at this
        exact this.1
      have harg : strictRender (.varr (x :: xs)) ++ rest
          = '[' :: (strictItems (x :: xs) ++ (']' :: rest)) := by
        simp [strictRender]
      rw [harg, parseV_brk]
      obtain ⟨u, hu⟩ := strictItems_decomp x xs
      obtain ⟨c, t, hxeq, hws, hbr, -⟩ := strictRender_head x hwx
      have hcons : strictItems (x :: xs) ++ (']' :: rest) = c :: (t ++ (u ++ (']' :: rest))) := by
        rw [hu, hxeq]
        simp
      rw [hcons, skipWs_cons_id _ _ hws]
      dsimp only
      rw [if_neg hbr, ← hcons]
      have hfi : (strictItems (x :: xs)).length + 1 < f := by
        have hlen : (strictRender (.varr (x :: xs))).length
            = (strictItems (x :: xs)).length + 2 := by
          simp [strictRender]
        omega
      rw [rtItems x xs f rest hv hfi]
  | .vobj [], fuel, rest, _, hf, _ => by
    cases fuel with
    | zero => exact absurd hf (Nat.not_lt_zero _)
    | succ f =>
      have harg : strictRender (.vobj []) ++ rest = lbr :: (rbr :: rest) := by
        simp [strictRender, strictProps]
      rw [harg, parseV_brc]
      rw [skipWs_cons_id _ _ (by decide)]
      rfl
  | .vobj ((k, v) :: fs), fuel, rest, hv, hf, _ => by
    cases fuel with
    | zero => exact absurd hf (Nat.not_lt_zero _)
    | succ f =>
      have harg : strictRender (.vobj ((k, v) :: fs)) ++ rest
          = lbr :: (strictProps ((k, v) :: fs) ++ (rbr :: rest)) := by
        simp [strictRender]
      rw [harg, parseV_brc]
      have hcons : strictProps ((k, v) :: fs) ++ (rbr :: rest)
          = qu :: ((k.data.flatMap strictChar ++ [qu]) ++
              (':' :: strictRender v ++ propsTail fs ++ (rbr :: rest))) := by
        cases fs with
        | nil => simp [strictProps, strictStr, propsTail]
        | cons p ps => simp [strictProps, strictStr, propsTail]
      rw [hcons, skipWs_cons_id _ _ (by decide)]
      dsimp only
      rw [if_neg (by decide : ¬qu = rbr), ← hcons]
      have hfi : (strictProps ((k, v) :: fs)).length + 1 < f := by
        have hlen : (strictRender (.vobj ((k, v) :: fs))).length
            = (strictProps ((k, v) :: fs)).length + 2 := by
          simp [strictRender]
        omega
      rw [rtProps k v fs f rest hv hfi]
termination_by v _ _ _ _ _ => sizeOf v
theorem rtItems : ∀ (x : JSVal) (xs : List JSVal) (fuel : Nat) (rest : List Char),
    wfItems (x :: xs) = true → (strictItems (x :: xs)).length + 1 < fuel →
    parseItems fuel (strictItems (x :: xs) ++ ']' :: rest) = some (x :: xs, rest)
  | x, [], fuel, rest, hwf, hf => by
    cases fuel with
    | zero => exact absurd hf (by omega)
    | succ f =>
      have hwx : wfJson x = true := by
        simp [wfItems] at hwf
        exact hwf
      have harg : strictItems [x] ++ ']' :: rest = strictRender x ++ ']' :: rest := by
        simp [strictItems]
      have hlen : (strictRender x).length < f := by
        have : (strictItems [x]).length = (strictRender x).length := by simp [strictItems]
        omega
      simp only [parseItems]
      rw [harg, rtV x f (']' :: rest) hwx hlen (numStop_cons _ _ (by decide))]
      dsimp only
      rw [skipWs_cons_id _ _ (by decide)]
      rfl
  | x, y :: ys, fuel, rest, hwf, hf => by
    cases fuel with
    | zero => exact absurd hf (by omega)
    | succ f =>
      have hw : wfJson x = true ∧ wfItems (y :: ys) = true := by
        simpa [wfItems, Bool.and_eq_true] using hwf
      have harg : strictItems (x :: y :: ys) ++ ']' :: rest
          = strictRender x ++ (',' :: (strictItems (y :: ys) ++ ']' :: rest)) := by
        simp [strictItems]
      have hlens : (strictItems (x :: y :: ys)).length
          = (strictRender x).length + 1 + (strictItems (y :: ys)).length := by
        simp [strictItems]
        omega
      have hlenx : (strictRender x).length < f := by omega
      have hleni : (strictItems (y :: ys)).length + 1 < f := by omega
      simp only [parseItems]
      rw [harg, rtV x f _ hw.1 hlenx (numStop_cons _ _ (by decide))]
      dsimp only
      rw [skipWs_cons_id _ _ (by decide)]
      dsimp only
      rw [if_pos rfl, rtItems y ys f rest hw.2 hleni]
termination_by x xs _ _ _ _ => sizeOf x + sizeOf xs
theorem rtProps : ∀ (k : String) (v : JSVal) (fs : List (String × JSVal)) (fuel : Nat)
    (rest : List Char),
    wfProps ((k, v) :: fs) = true → (strictProps ((k, v) :: fs)).length + 1 < fuel →
    parseProps fuel (strictProps ((k, v) :: fs) ++ rbr :: rest) = some ((k, v) :: fs, rest)
  | k, v, [], fuel, rest, hwf, hf => by
    cases fuel with
    | zero => exact absurd hf (by omega)
    | succ f =>
      have hw : wfStr k = true ∧ wfJson v = true := by
        simpa [wfProps, Bool.and_eq_true] using hwf
      have harg : strictProps [(k, v)] ++ rbr :: rest
          = qu :: (k.data.flatMap strictChar ++ (qu :: (':' :: (strictRender v ++ rbr :: rest)))) := by
        simp [strictProps, strictStr]
      have hlenv : (strictRender v).length < f := by
        have : (strictProps [(k, v)]).length
            = (strictStr k).length + 1 + (strictRender v).length := by
          simp [strictProps]
          omega
        omega
      simp only [parseProps]
      rw [harg, skipWs_cons_id _ _ (by decide)]
      dsimp only
      rw [if_pos rfl]
      rw [lexStrBody_run k.data [] _ hw.1]
      dsimp only
      rw [skipWs_cons_id _ _ (by decide)]
      dsimp only
      rw [if_pos rfl]
      simp only [List.reverse_nil, List.nil_append]
      rw [rtV v f _ hw.2 hlenv (numStop_cons _ _ (by decide))]
      dsimp only
      rw [skipWs_cons_id _ _ (by decide)]
      rfl
  | k, v, (k2, v2) :: ps, fuel, rest, hwf, hf => by
    cases fuel with
    | zero => exact absurd hf (by omega)
    | succ f =>
      have hw : wfStr k = true ∧ wfJson v = true ∧ wfProps ((k2, v2) :: ps) = true := by
        simpa [wfProps, Bool.and_eq_true, and_assoc] using hwf
      have harg : strictProps ((k, v) :: (k2, v2) :: ps) ++ rbr :: rest
          = qu :: (k.data.flatMap strictChar ++ (qu :: (':' ::
              (strictRender v ++ (',' :: (strictProps ((k2, v2) :: ps) ++ rbr :: rest)))))) := by
        simp [strictProps, strictStr]
      have hlens : (strictProps ((k, v) :: (k2, v2) :: ps)).length
          = (strictStr k).length + 1 + (strictRender v).length + 1
            + (strictProps ((k2, v2) :: ps)).length := by
        simp [strictProps, strictStr]
        omega
      have hlenv : (strictRender v).length < f := by omega
      have hlenp : (strictProps ((k2, v2) :: ps)).length + 1 < f := by omega
      simp only [parseProps]
      rw [harg, skipWs_cons_id _ _ (by decide)]
      dsimp only
      rw [if_pos rfl]
      rw [lexStrBody_run k.data [] _ hw.1]
      dsimp only
      rw [skipWs_cons_id _ _ (by decide)]
      dsimp only
      rw [if_pos rfl]
      simp only [List.reverse_nil, List.nil_append]
      rw [rtV v f _ hw.2.1 hlenv (numStop_cons _ _ (by decide))]
      dsimp only
      rw [skipWs_cons_id _ _ (by decide)]
      dsimp only
      rw [if_pos rfl, rtProps k2 v2 ps f rest hw.2.2 hlenp]
termination_by k v fs _ _ _ _ => sizeOf v + sizeOf fs
end

theorem jsonParseL_render (v : JSVal) (hv : wfJson v = true) :
    jsonParseL (strictRender v) = some v := by
  unfold jsonParseL
  have h := rtV v ((strictRender v).length + 1) [] hv (by omega) rfl
  rw [List.append_nil] at h
  rw [h]
  rfl

theorem locateL_id (cs : List Char) (hhead : cs.head? = some lbr)
    (hlast : cs.getLast? = some rbr) : locateL cs = some cs := by
  cases cs with
  | nil => cases hhead
  | cons c rest =>
    have hc : c = lbr := by simpa using hhead
    subst hc
    rw [locateL_brace]
    have hne : rest ≠ [] := by
      intro h0
      subst h0
      simp at hlast
      exact absurd hlast (by decide)
    have hlast2 : rest.getLast hne = rbr := by
      have h1 : (lbr :: rest).getLast? = rest.getLast? := by
        cases rest with
        | nil => exact absurd rfl hne
        | cons a as => exact List.getLast?_cons_cons
      rw [h1, List.getLast?_eq_getLast rest hne] at hlast
      exact Option.some.inj hlast
    have hdecomp : rest = rest.dropLast ++ [rbr] := by
      conv_lhs => rw [← List.dropLast_append_getLast hne]
      rw [hlast2]
    have hcut : cutAfterLastClose rest = some (rest.dropLast ++ [rbr]) :=
      (cutAfterLastClose_some_iff rest _).mpr
        ⟨rest.dropLast, [], by simpa using hdecomp, by simp, rfl⟩
    rw [hcut, ← hdecomp]

/-! ## Quoted spans free of control characters (C4) -/

def spanBodyClean (b : List Char) : Bool :=
  b.all (fun d => d != nlc && d != crc && d != tbc)

def spansCtlFreeF : Nat → List Char → Bool
  | 0, _ => true
  | fuel + 1, cs =>
    match cs with
    | [] => true
    | c :: rest =>
      if c = qu then
        match spanScan rest with
        | some (b, r) => spanBodyClean b && spansCtlFreeF fuel r
        | none => spansCtlFreeF fuel rest
      else spansCtlFreeF fuel rest

/-- Whether every quoted span of the candidate is free of the three
control characters the repair stage escapes. -/
def spansCtlFree (cs : List Char) : Bool := spansCtlFreeF (cs.length + 1) cs

theorem spansCtlFreeF_irrel :
    ∀ (f1 f2 : Nat) (cs : List Char), cs.length < f1 → cs.length < f2 →
      spansCtlFreeF f1 cs = spansCtlFreeF f2 cs := by
  intro f1
  induction f1 with
  | zero => intro f2 cs h1; omega
  | succ g ih =>
    intro f2 cs h1 h2
    cases f2 with
    | zero => omega
    | succ g2 =>
      cases cs with
      | nil => rfl
      | cons c rest =>
        simp only [List.length_cons] at h1 h2
        simp only [spansCtlFreeF]
        by_cases hc : c = qu
        · rw [if_pos hc, if_pos hc]
          cases hs : spanScan rest with
          | some p =>
            obtain ⟨b, r⟩ := p
            have hr := spanScan_rest_length rest b r hs
            dsimp only
            rw [ih g2 r (by omega) (by omega)]
          | none =>
            dsimp only
            rw [ih g2 rest (by omega) (by omega)]
        · rw [if_neg hc, if_neg hc, ih g2 rest (by omega) (by omega)]

theorem spansCtlFreeF_to (fuel : Nat) (cs : List Char) (h : cs.length < fuel) :
    spansCtlFreeF fuel cs = spansCtlFree cs :=
  spansCtlFreeF_irrel fuel (cs.length + 1) cs h (by omega)

/-- One-step unfolding of the span cleanliness check. -/
theorem spansCtlFree_cons (c : Char) (rest : List Char) :
    spansCtlFree (c :: rest) =
      (if c = qu then
        match spanScan rest with
        | some (b, r) => spanBodyClean b && spansCtlFree r
        | none => spansCtlFree rest
      else spansCtlFree rest) := by
  have base : spansCtlFree (c :: rest) =
      (if c = qu then
        match spanScan rest with
        | some (b, r) => spanBodyClean b && spansCtlFreeF (rest.length + 1) r
        | none => spansCtlFreeF (rest.length + 1) rest
      else spansCtlFreeF (rest.length + 1) rest) := rfl
  rw [base]
  by_cases hc : c = qu
  · rw [if_pos hc, if_pos hc]
    cases hs : spanScan rest with
    | some p =>
      obtain ⟨b, r⟩ := p
      have hr := spanScan_rest_length rest b r hs
      dsimp only
      rw [spansCtlFreeF_to _ _ (by omega)]
    | none =>
      dsimp only
      rw [spansCtlFreeF_to _ _ (by omega)]
  · rw [if_neg hc, if_neg hc, spansCtlFreeF_to _ _ (by omega)]

theorem spanScan_decomp :
    ∀ (cs b r : List Char), spanScan cs = some (b, r) → cs = b ++ qu :: r := by
  intro cs
  induction cs using spanScan.induct with
  | case1 => intro b r h; simp [spanScan] at h
  | case2 rest2 =>
    intro b r h
    simp [spanScan.eq_def] at h
    rcases h with ⟨rfl, rfl⟩
    rfl
  | case3 hbq => intro b r h; simp [spanScan, hbq] at h
  | case4 d rest2 hctl hbq => intro b r h; simp [spanScan, hbq, hctl] at h
  | case5 d rest2 hctl b0 r0 hs hbq ih =>
    intro b r h
    rw [spanScan.eq_def] at h
    simp [hbq, hctl, hs] at h
    rcases h with ⟨rfl, rfl⟩
    have := ih b0 r0 hs
    simp [this]
  | case6 d rest2 hctl hs hbq ih =>
    intro b r h
    simp [spanScan, hbq, hctl, hs] at h
  | case7 d rest2 hdq hdb b0 r0 hs ih =>
    intro b r h
    rw [spanScan.eq_def] at h
    simp [hdq, hdb, hs] at h
    rcases h with ⟨rfl, rfl⟩
    have := ih b0 r0 hs
    simp [this]
  | case8 d rest2 hdq hdb hs ih =>
    intro b r h
    rw [spanScan.eq_def] at h
    simp [hdq, hdb, hs] at h

theorem escTriple_clean (c : Char) (h1 : ¬c = nlc) (h2 : ¬c = crc) (h3 : ¬c = tbc) :
    escTriple c = [c] := by
  simp [escTriple, h1, h2, h3]

theorem escSpanBody_clean (b : List Char) (h : spanBodyClean b = true) :
    escSpanBody b = b := by
  induction b with
  | nil => rfl
  | cons c t ih =>
    simp only [spanBodyClean, List.all_cons, Bool.and_eq_true, bne_iff_ne, ne_eq] at h
    simp only [escSpanBody, List.flatMap_cons]
    rw [escTriple_clean c h.1.1.1 h.1.1.2 h.1.2]
    have := ih (by
      simp only [spanBodyClean, List.all_eq_true]
      intro d hd
      have := h.2
      simp only [List.all_eq_true] at this
      exact this d hd)
    simp only [escSpanBody] at this
    rw [this]
    rfl

theorem escapeStrings_clean_aux :
    ∀ (n : Nat) (cs : List Char), cs.length = n → spansCtlFree cs = true →
      escapeStringsL cs = cs := by
  intro n
  induction n using Nat.strong_induction_on with
  | _ n ih =>
    intro cs hn hclean
    cases cs with
    | nil => rfl
    | cons c rest =>
      subst hn
      rw [spansCtlFree_cons] at hclean
      rw [escapeStringsL_cons]
      by_cases hc : c = qu
      · rw [if_pos hc] at hclean ⊢
        cases hs : spanScan rest with
        | some p =>
          obtain ⟨b, r⟩ := p
          rw [hs] at hclean
          simp only [Bool.and_eq_true] at hclean
          have hdec := spanScan_decomp rest b r hs
          have hlen := spanScan_rest_length rest b r hs
          dsimp only
          rw [escSpanBody_clean b hclean.1,
            ih r.length (by simp only [List.length_cons]; omega) r rfl hclean.2]
          rw [hdec]
          simp [hc]
        | none =>
          rw [hs] at hclean
          dsimp only
          rw [ih rest.length (by simp) rest rfl hclean]
      · rw [if_neg hc] at hclean ⊢
        rw [ih rest.length (by simp) rest rfl hclean]

theorem escapeStrings_clean (cs : List Char) (h : spansCtlFree cs = true) :
    escapeStringsL cs = cs :=
  escapeStrings_clean_aux cs.length cs rfl h

/-- C4: extraction is idempotent on already-valid JSON: for a buffer that
starts at its open brace, ends at its close brace, has no control
characters inside its quoted spans, and parses as JSON directly, the
locate stage returns the buffer itself, the span-escaping stage leaves it
unchanged, and the pipeline's parse result is identical to parsing the
buffer directly. -/
theorem extraction_idempotent (cs : List Char) (v : JSVal)
    (hhead : cs.head? = some lbr) (hlast : cs.getLast? = some rbr)
    (hclean : spansCtlFree cs = true) (hparse : jsonParseL cs = some v) :
    locateL cs = some cs ∧ escapeStringsL cs = cs ∧ extractPayloadL cs = .ok v := by
  have h1 := locateL_id cs hhead hlast
  have h2 := escapeStrings_clean cs hclean
  refine ⟨h1, h2, ?_⟩
  unfold extractPayloadL
  rw [h1]
  dsimp only
  rw [h2, hparse]

/-- Witness for extraction_idempotent at the strict buffer holding one
pair with value one. -/
theorem extraction_idempotent_witness :
    extractPayloadL [lbr, qu, 'a', qu, ':', '1', rbr] = .ok (.vobj [("a", .vnum 1)]) :=
  (extraction_idempotent [lbr, qu, 'a', qu, ':', '1', rbr] (.vobj [("a", .vnum 1)])
    rfl rfl rfl rfl).2.2

/-! ## The repair stage on streaming-corrupted output (C3) -/

theorem escapeStrings_copy :
    ∀ (cs : List Char), qu ∉ cs → ∀ rest,
      escapeStringsL (cs ++ rest) = cs ++ escapeStringsL rest := by
  intro cs
  induction cs with
  | nil => intro _ rest; rfl
  | cons c t ih =>
    intro hq rest
    have hc : ¬c = qu := by
      intro he
      exact hq (by simp [he])
    rw [List.cons_append, escapeStringsL_cons, if_neg hc,
      ih (fun hm => hq (by simp [hm])) rest]
    simp

theorem spanScan_corruptChar (c : Char) (X : List Char) :
    spanScan (corruptChar c ++ X) =
      (match spanScan X with
       | some (b, r) => some (corruptChar c ++ b, r)
       | none => none) := by
  by_cases h1 : c = qu
  · subst h1
    show spanScan (bsl :: qu :: X) = _
    rw [spanScan.eq_def]
    simp [show ¬bsl = qu from by decide, show ¬(qu = nlc ∨ qu = crc) from by decide, corruptChar]
  · by_cases h2 : c = bsl
    · subst h2
      show spanScan (bsl :: bsl :: X) = _
      rw [spanScan.eq_def]
      simp [show ¬bsl = qu from by decide, show ¬(bsl = nlc ∨ bsl = crc) from by decide, corruptChar,
        show ¬bsl = 'u' from by decide]
    · have hcc : corruptChar c = [c] := by simp [corruptChar, h1, h2]
      rw [hcc]
      show spanScan (c :: X) = _
      rw [spanScan.eq_def]
      simp [h1, h2]

theorem spanScan_corrupt :
    ∀ (l : List Char) (rest : List Char),
      spanScan (l.flatMap corruptChar ++ (qu :: rest))
        = some (l.flatMap corruptChar, rest) := by
  intro l
  induction l with
  | nil =>
    intro rest
    simp [spanScan.eq_def]
  | cons c t ih =>
    intro rest
    rw [List.flatMap_cons, List.append_assoc, spanScan_corruptChar, ih rest]

theorem escSpanBody_corruptChar (c : Char) :
    escSpanBody (corruptChar c) = strictChar c := by
  by_cases h1 : c = qu
  · subst h1; rfl
  · by_cases h2 : c = bsl
    · subst h2; rfl
    · by_cases h3 : c = nlc
      · subst h3; rfl
      · by_cases h4 : c = crc
        · subst h4; rfl
        · by_cases h5 : c = tbc
          · subst h5; rfl
          · simp [corruptChar, strictChar, escSpanBody, escTriple, h1, h2, h3, h4, h5]

theorem escSpanBody_corrupt (l : List Char) :
    escSpanBody (l.flatMap corruptChar) = l.flatMap strictChar := by
  induction l with
  | nil => rfl
  | cons c t ih =>
    simp only [List.flatMap_cons, escSpanBody, List.flatMap_append]
    show escSpanBody (corruptChar c) ++ escSpanBody (t.flatMap corruptChar)
      = strictChar c ++ t.flatMap strictChar
    rw [escSpanBody_corruptChar c, ih]

theorem escapeStrings_corruptStr (s : String) (rest : List Char) :
    escapeStringsL (corruptStr s ++ rest) = strictStr s ++ escapeStringsL rest := by
  have harg : corruptStr s ++ rest
      = qu :: (s.data.flatMap corruptChar ++ (qu :: rest)) := by
    simp [corruptStr]
  rw [harg, escapeStringsL_cons, if_pos rfl, spanScan_corrupt]
  dsimp only
  rw [escSpanBody_corrupt]
  simp [strictStr]

theorem natChars_digits (m : Nat) : ∀ c ∈ natChars m, isDigitCh c = true := by
  obtain ⟨d, t, heq, hd, ht, -⟩ := natChars_spec m
  rw [heq]
  intro c hc
  rcases List.mem_cons.mp hc with rfl | h2
  · exact hd
  · exact ht c h2

theorem qu_not_mem_intChars (n : Int) : qu ∉ intChars n := by
  intro hm
  unfold intChars at hm
  by_cases hneg : n < 0
  · rw [if_pos hneg] at hm
    rcases List.mem_cons.mp hm with he | h2
    · exact absurd he (by decide)
    · have := natChars_digits n.natAbs qu h2
      simp [isDigitCh, qu] at this
  · rw [if_neg hneg] at hm
    have := natChars_digits n.natAbs qu hm
    simp [isDigitCh, qu] at this

mutual
theorem escCR : ∀ (v : JSVal) (rest : List Char),
    escapeStringsL (corruptRender v ++ rest) = strictRender v ++ escapeStringsL rest
  | .vnull, rest => escapeStrings_copy ['n', 'u', 'l', 'l'] (by decide) rest
  | .vundefined, rest => rfl
  | .vnan, rest => rfl
  | .vbool true, rest => escapeStrings_copy ['t', 'r', 'u', 'e'] (by decide) rest
  | .vbool false, rest => escapeStrings_copy ['f', 'a', 'l', 's', 'e'] (by decide) rest
  | .vnum n, rest => escapeStrings_copy (intChars n) (qu_not_mem_intChars n) rest
  | .vstr s, rest => escapeStrings_corruptStr s rest
  | .varr [], rest => escapeStrings_copy ['[', ']'] (by decide) rest
  | .varr (x :: xs), rest => by
    have harg : corruptRender (.varr (x :: xs)) ++ rest
        = '[' :: (corruptItems (x :: xs) ++ (']' :: rest)) := by
      simp [corruptRender]
    rw [harg, escapeStringsL_cons, if_neg (by decide : ¬('[' : Char) = qu),
      escCRItems x xs (']' :: rest),
      escapeStringsL_cons, if_neg (by decide : ¬(']' : Char) = qu)]
    simp [strictRender]
  | .vobj [], rest => escapeStrings_copy [lbr, rbr] (by decide) rest
  | .vobj ((k, v) :: fs), rest => by
    have harg : corruptRender (.vobj ((k, v) :: fs)) ++ rest
        = lbr :: (corruptProps ((k, v) :: fs) ++ (rbr :: rest)) := by
      simp [corruptRender]
    rw [harg, escapeStringsL_cons, if_neg (by decide : ¬lbr = qu),
      escCRProps k v fs (rbr :: rest),
      escapeStringsL_cons, if_neg (by decide : ¬rbr = qu)]
    simp [strictRender]
termination_by v _ => sizeOf v
theorem escCRItems : ∀ (x : JSVal) (xs : List JSVal) (rest : List Char),
    escapeStringsL (corruptItems (x :: xs) ++ rest)
      = strictItems (x :: xs) ++ escapeStringsL rest
  | x, [], rest => escCR x rest
  | x, y :: ys, rest => by
    have harg : corruptItems (x :: y :: ys) ++ rest
        = corruptRender x ++ (',' :: (corruptItems (y :: ys) ++ rest)) := by
      simp [corruptItems]
    rw [harg, escCR x _, escapeStringsL_cons, if_neg (by decide : ¬(',' : Char) = qu),
      escCRItems y ys rest]
    simp [strictItems]
termination_by x xs _ => sizeOf x + sizeOf xs
theorem escCRProps : ∀ (k : String) (v : JSVal) (fs : List (String × JSVal)) (rest : List Char),
    escapeStringsL (corruptProps ((k, v) :: fs) ++ rest)
      = strictProps ((k, v) :: fs) ++ escapeStringsL rest
  | k, v, [], rest => by
    have harg : corruptProps [(k, v)] ++ rest
        = corruptStr k ++ (':' :: (corruptRender v ++ rest)) := by
      simp [corruptProps]
    rw [harg, escapeStrings_corruptStr k _,
      escapeStringsL_cons, if_neg (by decide : ¬(':' : Char) = qu), escCR v rest]
    simp [strictProps]
  | k, v, (k2, v2) :: ps, rest => by
    have harg : corruptProps ((k, v) :: (k2, v2) :: ps) ++ rest
        = corruptStr k ++ (':' :: (corruptRender v
            ++ (',' :: (corruptProps ((k2, v2) :: ps) ++ rest)))) := by
      simp [corruptProps]
    rw [harg, escapeStrings_corruptStr k _,
      escapeStringsL_cons, if_neg (by decide : ¬(':' : Char) = qu), escCR v _,
      escapeStringsL_cons, if_neg (by decide : ¬(',' : Char) = qu),
      escCRProps k2 v2 ps rest]
    simp [strictProps]
termination_by _ v fs _ => sizeOf v + sizeOf fs
end

theorem escCR_top (v : JSVal) :
    escapeStringsL (corruptRender v) = strictRender v := by
  have h := escCR v []
  rw [escapeStringsL_nil] at h
  simpa using h

mutual
/-- Whether some string value (or key) of the payload contains a literal
newline. -/
def hasNlVal : JSVal → Bool
  | .vstr s => s.data.contains nlc
  | .varr xs => hasNlItems xs
  | .vobj fs => hasNlProps fs
  | _ => false
def hasNlItems : List JSVal → Bool
  | [] => false
  | x :: xs => hasNlVal x || hasNlItems xs
def hasNlProps : List (String × JSVal) → Bool
  | [] => false
  | (k, v) :: fs => k.data.contains nlc || hasNlVal v || hasNlProps fs
end

/-- C3: for every buffer whose located JSON candidate is the
streaming-corrupted serialization of a payload object (quotes and
backslashes properly escaped, but control characters literal inside
string values - otherwise well formed), the quoted-span escaping stage
followed by the JSON parse succeeds and returns exactly the payload: in
particular a literal newline inside a JSON string value round-trips into
an actual newline character of the parsed string value. -/
theorem newline_escape_roundtrip (fs : List (String × JSVal)) (pre post : List Char)
    (hpre : lbr ∉ pre) (hpost : rbr ∉ post)
    (hwf : wfProps fs = true) (hnl : hasNlVal (.vobj fs) = true) :
    locateL (pre ++ corruptRender (.vobj fs) ++ post) = some (corruptRender (.vobj fs)) ∧
    escapeStringsL (corruptRender (.vobj fs)) = strictRender (.vobj fs) ∧
    extractPayloadL (pre ++ corruptRender (.vobj fs) ++ post) = .ok (.vobj fs) ∧
    hasNlVal (.vobj fs) = true := by
  have hloc : locateL (pre ++ corruptRender (.vobj fs) ++ post)
      = some (corruptRender (.vobj fs)) := by
    apply (locateL_some_iff _ _).mpr
    refine ⟨pre, corruptProps fs, post, ?_, hpre, hpost, ?_⟩
    · show pre ++ corruptRender (.vobj fs) ++ post = _
      simp [corruptRender]
    · simp [corruptRender]
  refine ⟨hloc, escCR_top _, ?_, hnl⟩
  unfold extractPayloadL
  rw [hloc]
  dsimp only
  rw [escCR_top, jsonParseL_render (.vobj fs) hwf]

/-- Witness for newline_escape_roundtrip: noise, then a one-pair object
whose string value has a literal newline between two letters, then
trailing noise. -/
theorem newline_escape_roundtrip_witness :
    extractPayloadL (['o', 'k', ' ']
        ++ corruptRender (.vobj [("a", .vstr (String.mk ['x', nlc, 'y']))]) ++ [' ', 'z'])
      = .ok (.vobj [("a", .vstr (String.mk ['x', nlc, 'y']))]) :=
  (newline_escape_roundtrip [("a", .vstr (String.mk ['x', nlc, 'y']))]
    ['o', 'k', ' '] [' ', 'z'] (by decide) (by decide) rfl rfl).2.2.1
